import Mathlib

/-!
# Verification of the seamless-texture-maker core

A shallow embedding of the pixel-level core of the seamless-texture maker
(`src/app/core/`) together with proofs and refutations of the specified
properties.

Modelling conventions, shared by the whole development:

* An image is a total function `ℕ → ℕ → α` together with explicit
  height/width bounds carried separately; only indices below the bounds are
  meaningful.  Single-channel (grayscale) images are modelled; every routine
  treated here operates channelwise, and the 2-D (`len(image.shape) == 2`)
  code path of each routine is the one embedded.
* Pixel values of floating-point images are idealised as real numbers, and
  fractional parameters as rationals; `astype` conversions between floating
  dtypes are the identity under this idealisation.
* Python's `int(q)` (truncation toward zero) is `pyInt`;
  `x % n` on a nonnegative modulus is `Int.emod` / `qmod`.
-/

/-- Python `int()` applied to a rational: truncation toward zero. -/
def pyInt (q : ℚ) : ℤ := if 0 ≤ q then ⌊q⌋ else -⌊-q⌋

/-- Python `%` for a rational left operand and positive natural modulus:
`q - n*⌊q/n⌋`, always in `[0, n)`. -/
def qmod (q : ℚ) (n : ℕ) : ℚ := q - n * ⌊q / (n : ℚ)⌋

theorem pyInt_of_nonneg {q : ℚ} (h : 0 ≤ q) : pyInt q = ⌊q⌋ := by
  simp [pyInt, h]

/-! ## `offset_mapping.py` -/

/-- `np.roll(a, s, axis=0)` on an image with `n` rows:
row `i` of the result is row `(i - s) mod n` of the input. -/
def npRollRows {α : Type} (n : ℕ) (s : ℤ) (img : ℕ → ℕ → α) : ℕ → ℕ → α :=
  fun i j => img (((i : ℤ) - s) % (n : ℤ)).toNat j

/-- `np.roll(a, s, axis=1)` on an image with `n` columns. -/
def npRollCols {α : Type} (n : ℕ) (s : ℤ) (img : ℕ → ℕ → α) : ℕ → ℕ → α :=
  fun i j => img i (((j : ℤ) - s) % (n : ℤ)).toNat

/-- `offset_image(image, offset_x, offset_y)` from `offset_mapping.py`:
shifts by `int(w*offset_x)` columns (axis 1), then `int(h*offset_y)` rows
(axis 0), both circular. -/
def offset_image {α : Type} (img : ℕ → ℕ → α) (h w : ℕ) (ox oy : ℚ) :
    ℕ → ℕ → α :=
  npRollRows h (pyInt ((h : ℚ) * oy)) (npRollCols w (pyInt ((w : ℚ) * ox)) img)

/-- `reverse_offset(image, offset_x, offset_y)` from `offset_mapping.py`:
shifts by `-int(h*offset_y)` rows (axis 0), then `-int(w*offset_x)` columns
(axis 1). -/
def reverse_offset {α : Type} (img : ℕ → ℕ → α) (h w : ℕ) (ox oy : ℚ) :
    ℕ → ℕ → α :=
  npRollCols w (-(pyInt ((w : ℚ) * ox))) (npRollRows h (-(pyInt ((h : ℚ) * oy))) img)

/-- The spec's reading of the offset contract ("circularly shifts rows by
`round(fy*H)` and columns by `round(fx*W)`"), for comparison with
`offset_image`. -/
def offsetImageSpecRound {α : Type} (img : ℕ → ℕ → α) (h w : ℕ) (ox oy : ℚ) :
    ℕ → ℕ → α :=
  fun i j =>
    img (((i : ℤ) - round ((h : ℚ) * oy)) % (h : ℤ)).toNat
        (((j : ℤ) - round ((w : ℚ) * ox)) % (w : ℤ)).toNat

theorem emod_shift_unshift (n : ℕ) (s : ℤ) (j : ℕ) (hj : j < n) :
    (((((j : ℤ) - -s) % (n : ℤ)).toNat : ℤ) - s) % (n : ℤ) = (j : ℤ) := by
  have hn : (0 : ℤ) < (n : ℤ) := by exact_mod_cast Nat.pos_of_ne_zero (by omega)
  have h1 : ((j : ℤ) - -s) % (n : ℤ) = ((j : ℤ) + s) % (n : ℤ) := by ring_nf
  rw [h1]
  have hnonneg : 0 ≤ ((j : ℤ) + s) % (n : ℤ) := Int.emod_nonneg _ (by omega)
  rw [Int.toNat_of_nonneg hnonneg, Int.sub_emod, Int.emod_emod_of_dvd _ dvd_rfl,
    ← Int.sub_emod]
  have h2 : (j : ℤ) + s - s = (j : ℤ) := by ring
  rw [h2, Int.emod_eq_of_lt (by positivity) (by exact_mod_cast hj)]

/-- C1: the shift/unshift round-trip is the identity.  For every image, every
`fx, fy ∈ [0,1)` and every in-bounds pixel, `reverse_offset` applied with the
same fractional offsets to `offset_image`'s result gives back the original
pixel value. -/
theorem reverse_offset_offset_image {α : Type} (img : ℕ → ℕ → α) (h w : ℕ)
    (ox oy : ℚ) (hox0 : 0 ≤ ox) (hox1 : ox < 1) (hoy0 : 0 ≤ oy) (hoy1 : oy < 1)
    (i j : ℕ) (hi : i < h) (hj : j < w) :
    reverse_offset (offset_image img h w ox oy) h w ox oy i j = img i j := by
  simp only [reverse_offset, offset_image, npRollRows, npRollCols]
  have hrow := emod_shift_unshift h (pyInt ((h : ℚ) * oy)) i hi
  have hcol := emod_shift_unshift w (pyInt ((w : ℚ) * ox)) j hj
  rw [hrow, hcol]
  simp

/-- Witness for `reverse_offset_offset_image` at a concrete 2×3 image and
offsets `fx = 2/3`, `fy = 1/2`. -/
theorem reverse_offset_offset_image_witness :
    reverse_offset (offset_image (fun i j => 10 * i + j) 2 3 (2/3) (1/2))
      2 3 (2/3) (1/2) 1 2 = 10 * 1 + 2 :=
  reverse_offset_offset_image (fun i j => 10 * i + j) 2 3 (2/3) (1/2)
    (by norm_num) (by norm_num) (by norm_num) (by norm_num) 1 2
    (by norm_num) (by norm_num)

/-- C7 (amended): `offset_image` circularly shifts rows by `⌊fy*H⌋` and
columns by `⌊fx*W⌋` — truncation, not rounding — wrapping indices modulo the
height and width. -/
theorem offset_image_floor_shift {α : Type} (img : ℕ → ℕ → α) (h w : ℕ)
    (ox oy : ℚ) (hox0 : 0 ≤ ox) (hoy0 : 0 ≤ oy) (i j : ℕ) :
    offset_image img h w ox oy i j =
      img (((i : ℤ) - ⌊(h : ℚ) * oy⌋) % (h : ℤ)).toNat
          (((j : ℤ) - ⌊(w : ℚ) * ox⌋) % (w : ℤ)).toNat := by
  simp only [offset_image, npRollRows, npRollCols]
  rw [pyInt_of_nonneg (by positivity), pyInt_of_nonneg (by positivity)]

/-- Witness for `offset_image_floor_shift` at a concrete input. -/
theorem offset_image_floor_shift_witness :
    offset_image (fun i j => 10 * i + j) 2 3 (2/3) (1/2) 1 2 =
      (fun i j => 10 * i + j)
        (((1 : ℤ) - ⌊(2 : ℚ) * (1/2)⌋) % (2 : ℤ)).toNat
        (((2 : ℤ) - ⌊(3 : ℚ) * (2/3)⌋) % (3 : ℤ)).toNat :=
  offset_image_floor_shift (fun i j => 10 * i + j) 2 3 (2/3) (1/2)
    (by norm_num) (by norm_num) 1 2

/-- C7 counterexample: on the 1×2 image `[5, 9]` with `fx = 9/10`, the code
shifts columns by `int(2 * 0.9) = 1`, whereas the claimed `round(fx*W) = 2`
would leave the image fixed; the two disagree at pixel `(0,0)`. -/
theorem offset_image_round_counterexample :
    offset_image (fun _ j => if j = 0 then (5 : ℕ) else 9) 1 2 (9/10) 0 0 0 = 9 ∧
    offsetImageSpecRound (fun _ j => if j = 0 then (5 : ℕ) else 9) 1 2 (9/10) 0 0 0 = 5 ∧
    (9 : ℕ) ≠ 5 := by
  refine ⟨?_, ?_, by norm_num⟩
  · simp only [offset_image, npRollRows, npRollCols]
    have hx : pyInt (((2 : ℕ) : ℚ) * (9/10)) = 1 := by
      rw [pyInt_of_nonneg (by norm_num)]
      norm_num
    rw [hx]
    norm_num
  · simp only [offsetImageSpecRound]
    have hx : round (((2 : ℕ) : ℚ) * (9/10)) = 2 := by
      rw [round_eq]
      norm_num
    rw [hx]
    norm_num

/-! ## `cache.py` — `ResultCache`

Keys model the md5 fingerprint strings derived from the parameter record and
the optional image hash (`_hash_params` / `hash_image`): equal parameters and
equal fingerprints produce equal keys, so keys are taken as an opaque `ℕ`.
Values model the stored images; `result.copy()` / `self.cache[key].copy()`
return images value-equal to the stored one, so storing and returning copies
is value-preserving in the model. -/

/-- The state of a `ResultCache`: the `cache` dict (an association list with
unique keys), `max_size`, and the `access_order` list. -/
structure RCache (V : Type) where
  cache : List (ℕ × V)
  maxSize : ℕ
  accessOrder : List ℕ

/-- Dictionary lookup `self.cache[key]` / `key in self.cache`. -/
def dictLookup {V : Type} (l : List (ℕ × V)) (k : ℕ) : Option V :=
  (l.find? (fun p => p.1 = k)).map (fun p => p.2)

/-- Dictionary deletion `del self.cache[key]`. -/
def dictErase {V : Type} (l : List (ℕ × V)) (k : ℕ) : List (ℕ × V) :=
  l.filter (fun p => p.1 ≠ k)

/-- Dictionary assignment `self.cache[key] = v`: replaces the binding if the
key is present, otherwise appends it (Python dicts keep insertion order). -/
def dictInsert {V : Type} (l : List (ℕ × V)) (k : ℕ) (v : V) : List (ℕ × V) :=
  if (dictLookup l k).isSome then
    l.map (fun p => if p.1 = k then (k, v) else p)
  else
    l ++ [(k, v)]

/-- A freshly constructed `ResultCache(max_size)`. -/
def freshCache (V : Type) (maxSize : ℕ) : RCache V :=
  ⟨[], maxSize, []⟩

/-- `ResultCache.get`: on a hit, refresh the key's recency (remove it from
`access_order` if present, then append it) and return the stored value;
on a miss return `None` and leave the state unchanged. -/
def cacheGet {V : Type} (c : RCache V) (k : ℕ) : Option V × RCache V :=
  match dictLookup c.cache k with
  | some v => (some v, { c with accessOrder :=
      (if k ∈ c.accessOrder then c.accessOrder.erase k else c.accessOrder) ++ [k] })
  | none => (none, c)

/-- The eviction step at the start of `ResultCache.set`: if the cache is
full and the key is new, drop the head of `access_order` (when non-empty)
from both structures. -/
def evictOldest {V : Type} (c : RCache V) (k : ℕ) : RCache V :=
  if c.maxSize ≤ c.cache.length ∧ (dictLookup c.cache k).isNone then
    match c.accessOrder with
    | [] => c
    | oldest :: rest =>
        { c with cache := dictErase c.cache oldest, accessOrder := rest }
  else c

/-- `ResultCache.set`: evict if needed, then store the value and append the
key to `access_order` if it is not already there. -/
def cacheSet {V : Type} (c : RCache V) (k : ℕ) (v : V) : RCache V :=
  { cache := dictInsert (evictOldest c k).cache k v,
    maxSize := (evictOldest c k).maxSize,
    accessOrder :=
      if k ∈ (evictOldest c k).accessOrder then (evictOldest c k).accessOrder
      else (evictOldest c k).accessOrder ++ [k] }

/-- `ResultCache.clear`. -/
def cacheClear {V : Type} (c : RCache V) : RCache V :=
  { c with cache := [], accessOrder := [] }

/-- One externally visible cache operation. -/
inductive CacheOp (V : Type) where
  | get (k : ℕ)
  | set (k : ℕ) (v : V)
  | clear

/-- Apply one operation to a cache state. -/
def cacheStep {V : Type} (c : RCache V) : CacheOp V → RCache V
  | CacheOp.get k => (cacheGet c k).2
  | CacheOp.set k v => cacheSet c k v
  | CacheOp.clear => cacheClear c

/-- Run a sequence of operations from a freshly constructed cache. -/
def cacheRun (V : Type) (maxSize : ℕ) (ops : List (CacheOp V)) : RCache V :=
  ops.foldl cacheStep (freshCache V maxSize)

/-- The structural invariant of `ResultCache`: the dict's keys are unique,
`access_order` is duplicate-free and contains exactly the dict's keys, the
entry count is bounded by `max_size`, and `max_size` is positive. -/
def CacheInv {V : Type} (c : RCache V) : Prop :=
  (c.cache.map Prod.fst).Nodup ∧
  c.accessOrder.Nodup ∧
  (∀ k, k ∈ c.accessOrder ↔ k ∈ c.cache.map Prod.fst) ∧
  c.cache.length ≤ c.maxSize ∧
  1 ≤ c.maxSize

theorem dictLookup_isSome_iff {V : Type} (l : List (ℕ × V)) (k : ℕ) :
    (dictLookup l k).isSome ↔ k ∈ l.map Prod.fst := by
  induction l with
  | nil => simp [dictLookup]
  | cons p t ih =>
      by_cases hp : p.1 = k
      · simp [dictLookup, List.find?_cons, hp]
      · simpa [dictLookup, List.find?_cons, hp, Ne.symm hp] using ih

theorem dictLookup_eq_none_iff {V : Type} (l : List (ℕ × V)) (k : ℕ) :
    dictLookup l k = none ↔ k ∉ l.map Prod.fst := by
  rw [← dictLookup_isSome_iff, Option.isSome_iff_exists]
  cases dictLookup l k <;> simp

theorem dictLookup_insert_self {V : Type} (l : List (ℕ × V)) (k : ℕ) (v : V) :
    dictLookup (dictInsert l k v) k = some v := by
  unfold dictInsert
  by_cases hs : (dictLookup l k).isSome
  · simp only [hs, if_true]
    induction l with
    | nil => simp [dictLookup] at hs
    | cons p t ih =>
        by_cases hp : p.1 = k
        · simp [dictLookup, List.find?_cons, hp]
        · have hp' : ¬((if p.1 = k then (k, v) else p).1 = k) := by simp [hp]
          have hs' : (dictLookup t k).isSome := by
            simpa [dictLookup, List.find?_cons, hp] using hs
          simpa [dictLookup, List.find?_cons, hp'] using ih hs'
  · simp only [hs, if_false]
    have hnone : dictLookup l k = none := by
      cases h : dictLookup l k
      · rfl
      · rw [h] at hs
        simp at hs
    have hnotmem : k ∉ l.map Prod.fst := (dictLookup_eq_none_iff l k).mp hnone
    induction l with
    | nil => simp [dictLookup]
    | cons p t ih =>
        have hp : ¬(p.1 = k) := by
          intro hc
          exact hnotmem (by simp [hc])
        have ht : k ∉ t.map Prod.fst := fun hc => hnotmem (by simp [hc])
        have htn : dictLookup t k = none := (dictLookup_eq_none_iff t k).mpr ht
        have hts : ¬(dictLookup t k).isSome := by simp [htn]
        simpa [dictLookup, List.find?_cons, hp] using ih hts htn ht

theorem keys_dictInsert_pos {V : Type} (l : List (ℕ × V)) (k : ℕ) (v : V)
    (h : (dictLookup l k).isSome) :
    (dictInsert l k v).map Prod.fst = l.map Prod.fst := by
  unfold dictInsert
  rw [if_pos h, List.map_map]
  apply List.map_congr_left
  intro p _
  by_cases hp : p.1 = k <;> simp [hp]

theorem keys_dictInsert_neg {V : Type} (l : List (ℕ × V)) (k : ℕ) (v : V)
    (h : (dictLookup l k).isNone) :
    (dictInsert l k v).map Prod.fst = l.map Prod.fst ++ [k] := by
  unfold dictInsert
  rw [if_neg (by simp [Option.isNone_iff_eq_none.mp h])]
  simp

theorem keys_dictErase {V : Type} (l : List (ℕ × V)) (k : ℕ) :
    (dictErase l k).map Prod.fst = (l.map Prod.fst).filter (fun x => x ≠ k) := by
  induction l with
  | nil => rfl
  | cons p t ih =>
      by_cases hp : p.1 = k
      · simp [dictErase, List.filter_cons, hp] at ih ⊢
        exact ih
      · simp [dictErase, List.filter_cons, hp] at ih ⊢
        exact ih

theorem cacheGet_inv {V : Type} (c : RCache V) (k : ℕ) (h : CacheInv c) :
    CacheInv (cacheGet c k).2 := by
  obtain ⟨hkeys, hao, hmem, hlen, hmax⟩ := h
  unfold cacheGet
  cases hl : dictLookup c.cache k with
  | none => exact ⟨hkeys, hao, hmem, hlen, hmax⟩
  | some v =>
      have hk : k ∈ c.cache.map Prod.fst := by
        rw [← dictLookup_isSome_iff, hl]
        rfl
      have hkin : k ∈ c.accessOrder := (hmem k).mpr hk
      refine ⟨hkeys, ?_, ?_, hlen, hmax⟩
      · simp only [hkin, if_true]
        have herase : (c.accessOrder.erase k).Nodup := hao.erase k
        have hnotin : k ∉ c.accessOrder.erase k := hao.not_mem_erase
        simpa [List.nodup_append] using ⟨herase, hnotin⟩
      · intro x
        simp only [hkin, if_true, List.mem_append, List.mem_singleton]
        rw [hao.mem_erase_iff]
        constructor
        · rintro (⟨_, hx⟩ | rfl)
          · exact (hmem x).mp hx
          · exact hk
        · intro hx
          by_cases hxk : x = k
          · exact Or.inr hxk
          · exact Or.inl ⟨hxk, (hmem x).mpr hx⟩

theorem cacheClear_inv {V : Type} (c : RCache V) (h : CacheInv c) :
    CacheInv (cacheClear c) := by
  obtain ⟨_, _, _, _, hmax⟩ := h
  exact ⟨by simp [cacheClear], by simp [cacheClear], by simp [cacheClear],
    by simp [cacheClear], hmax⟩

theorem nodup_snoc {α : Type} (l : List α) (a : α) (h1 : l.Nodup)
    (h2 : a ∉ l) : (l ++ [a]).Nodup := by
  rw [List.nodup_append]
  refine ⟨h1, List.nodup_singleton a, ?_⟩
  intro x hx hx'
  simp only [List.mem_singleton] at hx'
  subst hx'
  exact h2 hx

theorem length_dictInsert_of_isSome {V : Type} (l : List (ℕ × V)) (k : ℕ)
    (v : V) (h : (dictLookup l k).isSome) :
    (dictInsert l k v).length = l.length := by
  unfold dictInsert
  rw [if_pos h, List.length_map]

theorem length_dictInsert_of_isNone {V : Type} (l : List (ℕ × V)) (k : ℕ)
    (v : V) (h : (dictLookup l k).isNone) :
    (dictInsert l k v).length = l.length + 1 := by
  unfold dictInsert
  rw [if_neg (by simp_all), List.length_append, List.length_singleton]

theorem length_dictErase_of_mem {V : Type} (l : List (ℕ × V)) (a : ℕ)
    (hnd : (l.map Prod.fst).Nodup) (hmem : a ∈ l.map Prod.fst) :
    (dictErase l a).length + 1 = l.length := by
  have hb : (fun x : ℕ => decide (x ≠ a)) = (fun x => x != a) := by
    funext x
    by_cases h : x = a <;> simp [h]
  have h1 : (dictErase l a).length = ((l.map Prod.fst).filter
      (fun x => decide (x ≠ a))).length := by
    rw [← keys_dictErase, List.length_map]
  rw [h1, hb, ← List.Nodup.erase_eq_filter hnd a, List.length_erase_of_mem hmem,
    List.length_map]
  have : l.map Prod.fst ≠ [] := by
    intro hc
    rw [hc] at hmem
    simp at hmem
  have hpos : 0 < (l.map Prod.fst).length := List.length_pos.mpr this
  rw [List.length_map] at hpos
  omega

theorem cacheSet_inv {V : Type} (c : RCache V) (k : ℕ) (v : V)
    (h : CacheInv c) : CacheInv (cacheSet c k v) := by
  obtain ⟨hkeys, hao, hmem, hlen, hmax⟩ := h
  by_cases hcond : c.maxSize ≤ c.cache.length ∧ (dictLookup c.cache k).isNone = true
  · -- eviction branch: the key is new and the cache is full
    have hknotin : k ∉ c.cache.map Prod.fst := by
      rw [← dictLookup_eq_none_iff]
      exact Option.isNone_iff_eq_none.mp hcond.2
    have hkao : k ∉ c.accessOrder := fun hc => hknotin ((hmem k).mp hc)
    have hlen' : c.cache.length = c.maxSize := le_antisymm hlen hcond.1
    have haone : c.accessOrder ≠ [] := by
      intro hc
      have hne : c.cache ≠ [] := by
        intro hcc
        rw [hcc] at hlen'
        simp at hlen'
        omega
      obtain ⟨p, hp⟩ := List.exists_mem_of_ne_nil c.cache hne
      have : p.1 ∈ c.accessOrder := (hmem p.1).mpr (List.mem_map_of_mem Prod.fst hp)
      rw [hc] at this
      simp at this
    obtain ⟨oldest, rest, hsplit⟩ := List.exists_cons_of_ne_nil haone
    have hev : evictOldest c k =
        { c with cache := dictErase c.cache oldest, accessOrder := rest } := by
      unfold evictOldest
      rw [if_pos hcond, hsplit]
    have holdmem : oldest ∈ c.cache.map Prod.fst := by
      apply (hmem oldest).mp
      rw [hsplit]
      simp
    have haos : (oldest :: rest).Nodup := hsplit ▸ hao
    have hrestnd : rest.Nodup := haos.of_cons
    have holdrest : oldest ∉ rest := (List.nodup_cons.mp haos).1
    have hkeyserase : (dictErase c.cache oldest).map Prod.fst =
        (c.cache.map Prod.fst).filter (fun x => x ≠ oldest) := keys_dictErase _ _
    have hkeyserasend : ((dictErase c.cache oldest).map Prod.fst).Nodup := by
      rw [hkeyserase]
      exact hkeys.filter _
    have hknone' : (dictLookup (dictErase c.cache oldest) k).isNone := by
      rw [Option.isNone_iff_eq_none, dictLookup_eq_none_iff, hkeyserase]
      intro hc
      exact hknotin (List.mem_of_mem_filter hc)
    have hkrest : k ∉ rest := fun hc => hkao (by rw [hsplit]; exact List.mem_cons_of_mem _ hc)
    unfold cacheSet
    rw [hev]
    refine ⟨?_, ?_, ?_, ?_, hmax⟩
    · show ((dictInsert (dictErase c.cache oldest) k v).map Prod.fst).Nodup
      rw [keys_dictInsert_neg _ _ _ hknone']
      refine nodup_snoc _ _ hkeyserasend ?_
      rw [hkeyserase]
      intro hc
      exact hknotin (List.mem_of_mem_filter hc)
    · show (if k ∈ rest then rest else rest ++ [k]).Nodup
      rw [if_neg hkrest]
      exact nodup_snoc _ _ hrestnd hkrest
    · intro x
      show x ∈ (if k ∈ rest then rest else rest ++ [k]) ↔
        x ∈ (dictInsert (dictErase c.cache oldest) k v).map Prod.fst
      rw [if_neg hkrest, keys_dictInsert_neg _ _ _ hknone', hkeyserase]
      simp only [List.mem_append, List.mem_singleton, List.mem_filter,
        decide_eq_true_eq]
      constructor
      · rintro (hx | rfl)
        · left
          refine ⟨(hmem x).mp (by rw [hsplit]; exact List.mem_cons_of_mem _ hx), ?_⟩
          intro hxe
          subst hxe
          exact holdrest hx
        · right; rfl
      · rintro (⟨hx, hxo⟩ | rfl)
        · left
          have hxc : x ∈ oldest :: rest := by
            rw [← hsplit]
            exact (hmem x).mpr hx
          rcases List.mem_cons.mp hxc with rfl | hxr
          · exact absurd rfl hxo
          · exact hxr
        · right; rfl
    · show (dictInsert (dictErase c.cache oldest) k v).length ≤ c.maxSize
      rw [length_dictInsert_of_isNone _ _ _ hknone']
      have := length_dictErase_of_mem c.cache oldest hkeys holdmem
      omega
  · -- no eviction
    have hev : evictOldest c k = c := by
      unfold evictOldest
      rw [if_neg hcond]
    unfold cacheSet
    rw [hev]
    by_cases hk : (dictLookup c.cache k).isSome
    · have hkin : k ∈ c.cache.map Prod.fst := (dictLookup_isSome_iff _ _).mp hk
      have hkao : k ∈ c.accessOrder := (hmem k).mpr hkin
      refine ⟨?_, ?_, ?_, ?_, hmax⟩
      · show ((dictInsert c.cache k v).map Prod.fst).Nodup
        rw [keys_dictInsert_pos _ _ _ hk]
        exact hkeys
      · show (if k ∈ c.accessOrder then c.accessOrder else c.accessOrder ++ [k]).Nodup
        rw [if_pos hkao]
        exact hao
      · intro x
        show x ∈ (if k ∈ c.accessOrder then c.accessOrder else c.accessOrder ++ [k]) ↔
          x ∈ (dictInsert c.cache k v).map Prod.fst
        rw [if_pos hkao, keys_dictInsert_pos _ _ _ hk]
        exact hmem x
      · show (dictInsert c.cache k v).length ≤ c.maxSize
        rw [length_dictInsert_of_isSome _ _ _ hk]
        exact hlen
    · have hknone : (dictLookup c.cache k).isNone := by
        cases hcl : dictLookup c.cache k
        · rfl
        · rw [hcl] at hk
          simp at hk
      have hknotin : k ∉ c.cache.map Prod.fst := by
        rw [← dictLookup_eq_none_iff]
        exact Option.isNone_iff_eq_none.mp hknone
      have hkao : k ∉ c.accessOrder := fun hc => hknotin ((hmem k).mp hc)
      have hsmall : c.cache.length < c.maxSize := by
        rcases not_and_or.mp hcond with hc | hc
        · omega
        · exact absurd hknone hc
      refine ⟨?_, ?_, ?_, ?_, hmax⟩
      · show ((dictInsert c.cache k v).map Prod.fst).Nodup
        rw [keys_dictInsert_neg _ _ _ hknone]
        exact nodup_snoc _ _ hkeys hknotin
      · show (if k ∈ c.accessOrder then c.accessOrder else c.accessOrder ++ [k]).Nodup
        rw [if_neg hkao]
        exact nodup_snoc _ _ hao hkao
      · intro x
        show x ∈ (if k ∈ c.accessOrder then c.accessOrder else c.accessOrder ++ [k]) ↔
          x ∈ (dictInsert c.cache k v).map Prod.fst
        rw [if_neg hkao, keys_dictInsert_neg _ _ _ hknone]
        simp only [List.mem_append, List.mem_singleton]
        constructor
        · rintro (hx | rfl)
          · exact Or.inl ((hmem x).mp hx)
          · exact Or.inr rfl
        · rintro (hx | rfl)
          · exact Or.inl ((hmem x).mpr hx)
          · exact Or.inr rfl
      · show (dictInsert c.cache k v).length ≤ c.maxSize
        rw [length_dictInsert_of_isNone _ _ _ hknone]
        omega

theorem cacheStep_inv {V : Type} (c : RCache V) (op : CacheOp V)
    (h : CacheInv c) : CacheInv (cacheStep c op) := by
  cases op with
  | get k => exact cacheGet_inv c k h
  | set k v => exact cacheSet_inv c k v h
  | clear => exact cacheClear_inv c h

theorem cacheRun_inv {V : Type} (n : ℕ) (ops : List (CacheOp V))
    (hn : 1 ≤ n) : CacheInv (cacheRun V n ops) := by
  have hgen : ∀ (l : List (CacheOp V)) (c : RCache V), CacheInv c →
      CacheInv (l.foldl cacheStep c) := by
    intro l
    induction l with
    | nil => intro c hc; exact hc
    | cons op t ih =>
        intro c hc
        exact ih _ (cacheStep_inv c op hc)
  exact hgen ops (freshCache V n) ⟨by simp [freshCache], by simp [freshCache],
    by simp [freshCache], by simp [freshCache], hn⟩

/-- C10: for every sequence of `get`/`set`/`clear` operations run from a
freshly constructed `ResultCache` with `max_size ≥ 1`, the number of stored
entries never exceeds `max_size`, and `access_order` contains exactly the
keys present in the cache dictionary, each exactly once. -/
theorem resultCache_invariant {V : Type} (n : ℕ) (ops : List (CacheOp V))
    (hn : 1 ≤ n) :
    (cacheRun V n ops).cache.length ≤ n ∧
    (cacheRun V n ops).accessOrder.Nodup ∧
    (∀ k, k ∈ (cacheRun V n ops).accessOrder ↔
      k ∈ (cacheRun V n ops).cache.map Prod.fst) := by
  obtain ⟨h1, h2, h3, h4, _⟩ := cacheRun_inv n ops hn
  have hms : (cacheRun V n ops).maxSize = n := by
    have hgen : ∀ (l : List (CacheOp V)) (c : RCache V),
        (l.foldl cacheStep c).maxSize = c.maxSize := by
      intro l
      induction l with
      | nil => intro c; rfl
      | cons op t ih =>
          intro c
          rw [List.foldl_cons, ih]
          cases op with
          | get k =>
              simp only [cacheStep, cacheGet]
              cases dictLookup c.cache k <;> rfl
          | set k v =>
              simp only [cacheStep, cacheSet]
              unfold evictOldest
              by_cases hc : c.maxSize ≤ c.cache.length ∧ (dictLookup c.cache k).isNone = true
              · rw [if_pos hc]
                cases c.accessOrder <;> rfl
              · rw [if_neg hc]
          | clear => rfl
    exact hgen ops (freshCache V n)
  rw [hms] at h4
  exact ⟨h4, h2, h3⟩

/-- Witness for `resultCache_invariant`: a short concrete run on a cache of
capacity 2. -/
theorem resultCache_invariant_witness :
    (cacheRun ℕ 2 [CacheOp.set 1 10, CacheOp.set 2 20, CacheOp.get 1,
        CacheOp.set 3 30]).cache.length ≤ 2 ∧
    (cacheRun ℕ 2 [CacheOp.set 1 10, CacheOp.set 2 20, CacheOp.get 1,
        CacheOp.set 3 30]).accessOrder.Nodup ∧
    (∀ k, k ∈ (cacheRun ℕ 2 [CacheOp.set 1 10, CacheOp.set 2 20, CacheOp.get 1,
        CacheOp.set 3 30]).accessOrder ↔
      k ∈ (cacheRun ℕ 2 [CacheOp.set 1 10, CacheOp.set 2 20, CacheOp.get 1,
        CacheOp.set 3 30]).cache.map Prod.fst) :=
  resultCache_invariant 2 _ (by norm_num)

theorem keys_of_pairList {V : Type} (vfn : ℕ → V) (l : List ℕ) :
    (l.map (fun k => (k, vfn k))).map Prod.fst = l := by
  rw [List.map_map]
  have hcomp : (Prod.fst ∘ fun k : ℕ => (k, vfn k)) = id := by
    funext k
    rfl
  rw [hcomp, List.map_id]

theorem cacheRun_fill_fresh {V : Type} (vfn : ℕ → V) (n : ℕ) (ks : List ℕ)
    (hnd : ks.Nodup) (hlen : ks.length ≤ n) :
    (cacheRun V n (ks.map (fun k => CacheOp.set k (vfn k)))).cache =
      ks.map (fun k => (k, vfn k)) ∧
    (cacheRun V n (ks.map (fun k => CacheOp.set k (vfn k)))).accessOrder = ks ∧
    (cacheRun V n (ks.map (fun k => CacheOp.set k (vfn k)))).maxSize = n := by
  induction ks using List.reverseRecOn with
  | nil => exact ⟨rfl, rfl, rfl⟩
  | append_singleton l a ih =>
      have hlnd : l.Nodup := (List.nodup_append.mp hnd).1
      have hanotin : a ∉ l := by
        intro hc
        exact (List.nodup_append.mp hnd).2.2 hc (List.mem_singleton_self a)
      have hllen : l.length < n := by
        rw [List.length_append, List.length_singleton] at hlen
        omega
      obtain ⟨ihc, iho, ihm⟩ := ih hlnd (le_of_lt hllen)
      have hfold : cacheRun V n ((l ++ [a]).map (fun k => CacheOp.set k (vfn k))) =
          cacheSet (cacheRun V n (l.map (fun k => CacheOp.set k (vfn k)))) a (vfn a) := by
        rw [List.map_append, List.map_singleton]
        unfold cacheRun
        rw [List.foldl_append, List.foldl_cons, List.foldl_nil]
        rfl
      set s := cacheRun V n (l.map (fun k => CacheOp.set k (vfn k))) with hs
      have hlook : dictLookup s.cache a = none := by
        rw [ihc, dictLookup_eq_none_iff, keys_of_pairList]
        exact hanotin
      have hev : evictOldest s a = s := by
        unfold evictOldest
        rw [if_neg]
        intro hc
        rw [ihm, ihc, List.length_map] at hc
        omega
      have hinsert : dictInsert s.cache a (vfn a) =
          (l ++ [a]).map (fun k => (k, vfn k)) := by
        unfold dictInsert
        rw [if_neg (by rw [hlook]; simp), ihc, List.map_append, List.map_singleton]
      have haorder : a ∉ s.accessOrder := by
        rw [iho]
        exact hanotin
      rw [hfold]
      unfold cacheSet
      rw [hev, hinsert, if_neg haorder, iho, ihm]
      exact ⟨rfl, rfl, rfl⟩

/-- C3: (i) a `get` with the same parameter/fingerprint key immediately
after a `set` returns exactly the stored value, from any cache state; and
(ii) after inserting `max_size + 1` distinct keys into a freshly constructed
cache (`max_size ≥ 1`), the first-inserted, never re-accessed key has been
evicted. -/
theorem resultCache_get_after_set_and_lru {V : Type} (c : RCache V) (k : ℕ)
    (v : V) (vfn : ℕ → V) (n k0 : ℕ) (rest : List ℕ)
    (hnd : (k0 :: rest).Nodup) (hlen : (k0 :: rest).length = n + 1)
    (hn : 1 ≤ n) :
    (cacheGet (cacheSet c k v) k).1 = some v ∧
    dictLookup (cacheRun V n ((k0 :: rest).map
      (fun key => CacheOp.set key (vfn key)))).cache k0 = none := by
  constructor
  · have hfound : dictLookup (cacheSet c k v).cache k = some v := by
      show dictLookup (dictInsert (evictOldest c k).cache k v) k = some v
      exact dictLookup_insert_self _ _ _
    unfold cacheGet
    rw [hfound]
  · -- split the (n+1)-st insert off the run
    rcases List.eq_nil_or_concat (k0 :: rest) with hnil | ⟨init, last, hconcat⟩
    · exact absurd hnil (by simp)
    rw [List.concat_eq_append] at hconcat
    have hinit_ne : init ≠ [] := by
      intro hcinit
      have hL : (k0 :: rest).length = 1 := by
        rw [hconcat, hcinit, List.nil_append, List.length_singleton]
      rw [hlen] at hL
      omega
    obtain ⟨b, initTail, hbt⟩ := List.exists_cons_of_ne_nil hinit_ne
    have hb : b = k0 := by
      rw [hbt] at hconcat
      rw [List.cons_append] at hconcat
      injection hconcat with h1 _
      exact h1.symm
    rw [hb] at hbt
    have hinitnd : init.Nodup := by
      rw [hconcat] at hnd
      exact (List.nodup_append.mp hnd).1
    have hlastnotin : last ∉ init := by
      rw [hconcat] at hnd
      intro hc
      exact (List.nodup_append.mp hnd).2.2 hc (List.mem_singleton_self last)
    have hinitlen : init.length = n := by
      rw [hconcat] at hlen
      rw [List.length_append, List.length_singleton] at hlen
      omega
    have hk0last : k0 ≠ last := by
      intro hc
      have : k0 ∈ init := by
        rw [hbt]
        exact List.mem_cons_self _ _
      rw [hc] at this
      exact hlastnotin this
    rw [hconcat]
    have hfold : cacheRun V n ((init ++ [last]).map (fun key => CacheOp.set key (vfn key))) =
        cacheSet (cacheRun V n (init.map (fun key => CacheOp.set key (vfn key))))
          last (vfn last) := by
      rw [List.map_append, List.map_singleton]
      unfold cacheRun
      rw [List.foldl_append, List.foldl_cons, List.foldl_nil]
      rfl
    rw [hfold]
    obtain ⟨hc, ho, hm⟩ := cacheRun_fill_fresh vfn n init hinitnd (le_of_eq hinitlen)
    set s := cacheRun V n (init.map (fun key => CacheOp.set key (vfn key))) with hs
    have hlook : dictLookup s.cache last = none := by
      rw [hc, dictLookup_eq_none_iff, keys_of_pairList]
      exact hlastnotin
    have hev : evictOldest s last =
        { s with cache := dictErase s.cache k0, accessOrder := initTail } := by
      unfold evictOldest
      rw [if_pos ⟨by rw [hm, hc, List.length_map, hinitlen], by rw [hlook]; rfl⟩]
      rw [ho, hbt]
    have hkeyserase : (dictErase s.cache k0).map Prod.fst =
        (s.cache.map Prod.fst).filter (fun x => x ≠ k0) := keys_dictErase _ _
    have hlook2 : (dictLookup (dictErase s.cache k0) last).isNone := by
      rw [Option.isNone_iff_eq_none, dictLookup_eq_none_iff, hkeyserase]
      intro hmem
      have : last ∈ s.cache.map Prod.fst := List.mem_of_mem_filter hmem
      rw [hc, keys_of_pairList] at this
      exact hlastnotin this
    show dictLookup (cacheSet s last (vfn last)).cache k0 = none
    unfold cacheSet
    rw [hev]
    show dictLookup (dictInsert (dictErase s.cache k0) last (vfn last)) k0 = none
    rw [dictLookup_eq_none_iff, keys_dictInsert_neg _ _ _ hlook2, hkeyserase]
    intro hmem
    rcases List.mem_append.mp hmem with hmem1 | hmem2
    · have := List.mem_filter.mp hmem1
      simp at this
    · rw [List.mem_singleton] at hmem2
      exact hk0last hmem2

/-- Witness for `resultCache_get_after_set_and_lru` with capacity 1 and the
two distinct keys `7` then `8`: get-after-set returns the stored value and
key `7` is evicted. -/
theorem resultCache_get_after_set_and_lru_witness :
    (cacheGet (cacheSet (freshCache ℕ 1) 5 55) 5).1 = some 55 ∧
    dictLookup (cacheRun ℕ 1 ([7, 8].map
      (fun key => CacheOp.set key (key + 1)))).cache 7 = none :=
  resultCache_get_after_set_and_lru (freshCache ℕ 1) 5 55 (fun key => key + 1)
    1 7 [8] (by norm_num) (by norm_num) (by norm_num)

/-! ## `edge_blending.py` / `edge_blending_jit.py` — seam blending

Images are real-valued (`float` dtype), so the trailing
`astype(image.dtype)` conversions are the identity.  `np.power` on
nonnegative floats is real exponentiation `Real.rpow`. -/

/-- A single-channel real-valued image. -/
abbrev Img := ℕ → ℕ → ℝ

/-- Functional update of one column: `result[:, c] = g`. -/
def updCol (f : Img) (c : ℕ) (g : ℕ → ℝ) : Img :=
  fun y x => if x = c then g y else f y x

/-- Functional update of one row: `result[r, :] = g`. -/
def updRow (f : Img) (r : ℕ) (g : ℕ → ℝ) : Img :=
  fun y x => if y = r then g x else f y x

/-- `blend_width = int((min(h, w) // 4) * blend_strength)` as computed by
both `blend_seams` and `blend_seams_fast`. -/
def blendWidth (h w : ℕ) (strength : ℚ) : ℕ :=
  (pyInt (((min h w / 4 : ℕ) : ℚ) * strength)).toNat

/-- The blend weight for offset `i + 1` out of `half_blend`
(`calculate_blend_weights` in the JIT module, and the identical inline
computation in `blend_seams`): `t = (i+1)/half_blend`, then, when
`smoothness > 0.01`, smoothstep followed by the power
`t ** (1/(2*smoothness))`. -/
noncomputable def seamWeight (hb : ℕ) (smoothness : ℚ) (i : ℕ) : ℝ :=
  let t : ℚ := ((i : ℚ) + 1) / (hb : ℚ)
  if 1/100 < smoothness then
    (((t * t * (3 - 2 * t)) : ℚ) : ℝ) ^ (((1 / (2 * smoothness)) : ℚ) : ℝ)
  else (t : ℝ)

/-- Column written at offset `i + 1`: `(cx - offset) % w`. -/
def seamLeftCol (w cx i : ℕ) : ℕ := (((cx : ℤ) - ((i : ℤ) + 1)) % (w : ℤ)).toNat

/-- Column read at offset `i + 1`: `(cx + offset) % w`. -/
def seamRightCol (w cx i : ℕ) : ℕ := (((cx : ℤ) + ((i : ℤ) + 1)) % (w : ℤ)).toNat

/-- Row written at offset `i + 1`: `(cy - offset) % h`. -/
def seamTopRow (h cy i : ℕ) : ℕ := (((cy : ℤ) - ((i : ℤ) + 1)) % (h : ℤ)).toNat

/-- Row read at offset `i + 1`: `(cy + offset) % h`. -/
def seamBotRow (h cy i : ℕ) : ℕ := (((cy : ℤ) + ((i : ℤ) + 1)) % (h : ℤ)).toNat

/-- The horizontal seam pass, shared verbatim by `blend_seams` (symmetric
branch) and `blend_seam_horizontal_jit`: for each offset, the written column
is a blend of the two source-image columns mirrored about `cx`.  Both
implementations read from the untouched source image. -/
noncomputable def hPassSeam (img : Img) (w cx hb : ℕ) (sm : ℚ) : Img :=
  (List.range hb).foldl (fun acc i =>
    updCol acc (seamLeftCol w cx i) (fun y =>
      (1 - seamWeight hb sm i) * img y (seamLeftCol w cx i) +
        seamWeight hb sm i * img y (seamRightCol w cx i))) img

/-- The vertical pass of `blend_seams` (reference): each written row blends
two rows of the original image `img`, overwriting whatever the horizontal
pass produced there. -/
noncomputable def vPassRefSeam (img : Img) (base : Img) (h cy hb : ℕ) (sm : ℚ) : Img :=
  (List.range hb).foldl (fun acc i =>
    updRow acc (seamTopRow h cy i) (fun x =>
      (1 - seamWeight hb sm i) * img (seamTopRow h cy i) x +
        seamWeight hb sm i * img (seamBotRow h cy i) x)) base

/-- The vertical pass of `blend_seams_fast` (`blend_seam_vertical_jit`
called with `result` as both source and destination): each written row
blends two rows of the current, already horizontally blended buffer. -/
noncomputable def vPassFastSeam (base : Img) (h cy hb : ℕ) (sm : ℚ) : Img :=
  (List.range hb).foldl (fun acc i =>
    updRow acc (seamTopRow h cy i) (fun x =>
      (1 - seamWeight hb sm i) * acc (seamTopRow h cy i) x +
        seamWeight hb sm i * acc (seamBotRow h cy i) x)) base

/-- The asymmetric ("soft", Gaussian-blur) branch of `blend_seams`.  The
separable Gaussian blur itself is an external numeric kernel, passed in as
`blur radius image`. -/
noncomputable def blendSeamsAsym (blur : ℕ → Img → Img) (img : Img)
    (h w bw : ℕ) (sm : ℚ) : Img :=
  let cx := w / 2
  let cy := h / 2
  let hb := bw / 2
  let maskX : ℕ → ℝ := fun x =>
    if 0 < hb ∧ cx - hb ≤ x ∧ x < min w (cx + hb) then
      let d : ℚ := 1 - |(x : ℚ) - (cx : ℚ)| / (hb : ℚ)
      ((d * d * (3 - 2 * d) : ℚ) : ℝ)
    else 0
  let maskY : ℕ → ℝ := fun y =>
    if 0 < hb ∧ cy - hb ≤ y ∧ y < min h (cy + hb) then
      let d : ℚ := 1 - |(y : ℚ) - (cy : ℚ)| / (hb : ℚ)
      ((d * d * (3 - 2 * d) : ℚ) : ℝ)
    else 0
  let baseRadius := max 3 (bw / 2)
  let scaled := (pyInt ((3 : ℚ) + ((baseRadius - 3 : ℕ) : ℚ) * sm)).toNat
  let blurRadius := max 3 (scaled ||| 1)
  let blurred := blur blurRadius img
  fun y x =>
    let m := max (maskX x) (maskY y)
    (1 - m) * img y x + m * blurred y x

/-- `blend_seams(image, blend_strength, smoothness, symmetric)` from
`edge_blending.py`. -/
noncomputable def blendSeams (blur : ℕ → Img → Img) (img : Img) (h w : ℕ)
    (strength sm : ℚ) (symmetric : Bool) : Img :=
  let bw := blendWidth h w strength
  if bw < 2 then img
  else if symmetric then
    vPassRefSeam img (hPassSeam img w (w / 2) (bw / 2) sm) h (h / 2) (bw / 2) sm
  else blendSeamsAsym blur img h w bw sm

/-- `blend_seams_fast(image, blend_strength, smoothness)` from
`edge_blending_jit.py`: identical width/weight computation, but the vertical
JIT pass is run in place on the horizontally blended buffer. -/
noncomputable def blendSeamsFast (img : Img) (h w : ℕ) (strength sm : ℚ) : Img :=
  let bw := blendWidth h w strength
  if bw < 2 then img
  else if bw / 2 < 1 then img
  else vPassFastSeam (hPassSeam img w (w / 2) (bw / 2) sm) h (h / 2) (bw / 2) sm

/-- C6 counterexample: for a 10×10 image and `blend_strength = 0.9` the code
computes `blend_width = int((10 // 4) * 0.9) = 1`, while the claimed formula
`(min(H,W)/4) * blend_strength` gives `2.25`; in particular the code is a
no-op there although the claimed width is at least 2. -/
theorem blendWidth_formula_counterexample :
    ((blendWidth 10 10 (9/10) : ℕ) : ℚ) = 1 ∧
    ((min 10 10 : ℕ) : ℚ) / 4 * (9/10) = 9/4 ∧ (1 : ℚ) ≠ 9/4 := by
  refine ⟨?_, by norm_num, by norm_num⟩
  have h1 : blendWidth 10 10 (9/10) = 1 := by
    unfold blendWidth
    have h2 : ((min 10 10 / 4 : ℕ) : ℚ) * (9/10) = 9/5 := by norm_num
    rw [h2, pyInt_of_nonneg (by norm_num)]
    norm_num
  rw [h1]
  norm_num

/-- C6 (amended): the computed seam-blend width is
`int((min(H,W) // 4) * blend_strength)`; whenever the real-valued
`(min(H,W)/4) * blend_strength` is below 2 — in particular whenever the
computed width is — the computed width is below 2 and both `blend_seams`
(either mode) and `blend_seams_fast` return the input image unchanged, a
successful no-op. -/
theorem blendSeams_noop_below_width (blur : ℕ → Img → Img) (img : Img)
    (h w : ℕ) (strength sm : ℚ) (symmetric : Bool) (hs0 : 0 ≤ strength)
    (hlt : ((min h w : ℕ) : ℚ) / 4 * strength < 2) :
    blendWidth h w strength < 2 ∧
    blendSeams blur img h w strength sm symmetric = img ∧
    blendSeamsFast img h w strength sm = img := by
  have hq0 : (0 : ℚ) ≤ ((min h w / 4 : ℕ) : ℚ) * strength := by positivity
  have hbw : blendWidth h w strength < 2 := by
    have hle : ((min h w / 4 : ℕ) : ℚ) * strength ≤
        ((min h w : ℕ) : ℚ) / 4 * strength :=
      mul_le_mul_of_nonneg_right (Nat.cast_div_le) hs0
    have hfl : ((⌊((min h w / 4 : ℕ) : ℚ) * strength⌋ : ℤ) : ℚ) ≤
        ((min h w / 4 : ℕ) : ℚ) * strength := Int.floor_le _
    have hfl0 : (0 : ℤ) ≤ ⌊((min h w / 4 : ℕ) : ℚ) * strength⌋ :=
      Int.floor_nonneg.mpr hq0
    unfold blendWidth
    rw [pyInt_of_nonneg hq0]
    have : ((⌊((min h w / 4 : ℕ) : ℚ) * strength⌋ : ℤ) : ℚ) < 2 :=
      lt_of_le_of_lt (le_trans hfl hle) hlt
    have h2 : ⌊((min h w / 4 : ℕ) : ℚ) * strength⌋ < 2 := by exact_mod_cast this
    omega
  refine ⟨hbw, ?_, ?_⟩
  · unfold blendSeams
    rw [if_pos hbw]
  · unfold blendSeamsFast
    rw [if_pos hbw]

/-- Witness for `blendSeams_noop_below_width` on a 10×10 image with
`blend_strength = 1/2`. -/
theorem blendSeams_noop_below_width_witness :
    blendWidth 10 10 (1/2) < 2 ∧
    blendSeams (fun _ f => f) (fun _ _ => (0 : ℝ)) 10 10 (1/2) (1/2) true =
      (fun _ _ => (0 : ℝ)) ∧
    blendSeamsFast (fun _ _ => (0 : ℝ)) 10 10 (1/2) (1/2) =
      (fun _ _ => (0 : ℝ)) :=
  blendSeams_noop_below_width (fun _ f => f) (fun _ _ => (0 : ℝ)) 10 10
    (1/2) (1/2) true (by norm_num) (by norm_num)

theorem foldRow_preserve (tr : ℕ → ℕ) (g : Img → ℕ → ℕ → ℝ) :
    ∀ (l : List ℕ) (base : Img) (y x : ℕ), (∀ i ∈ l, y ≠ tr i) →
      (l.foldl (fun acc i => updRow acc (tr i) (g acc i)) base) y x = base y x := by
  intro l
  induction l with
  | nil => intro base y x _; rfl
  | cons i t ih =>
      intro base y x hy
      rw [List.foldl_cons]
      rw [ih _ y x (fun j hj => hy j (List.mem_cons_of_mem _ hj))]
      have hyi : y ≠ tr i := hy i (List.mem_cons_self _ _)
      simp [updRow, hyi]

theorem foldCol_preserve (tc : ℕ → ℕ) (g : Img → ℕ → ℕ → ℝ) :
    ∀ (l : List ℕ) (base : Img) (y x : ℕ), (∀ i ∈ l, x ≠ tc i) →
      (l.foldl (fun acc i => updCol acc (tc i) (g acc i)) base) y x = base y x := by
  intro l
  induction l with
  | nil => intro base y x _; rfl
  | cons i t ih =>
      intro base y x hx
      rw [List.foldl_cons]
      rw [ih _ y x (fun j hj => hx j (List.mem_cons_of_mem _ hj))]
      have hxi : x ≠ tc i := hx i (List.mem_cons_self _ _)
      simp [updCol, hxi]

theorem foldRow_ref_eval (tr br : ℕ → ℕ) (wt : ℕ → ℝ) (img : Img) :
    ∀ (l : List ℕ) (base : Img) (i0 x : ℕ), l.Nodup → i0 ∈ l →
      (∀ j ∈ l, tr j = tr i0 → j = i0) →
      (l.foldl (fun acc i => updRow acc (tr i)
        (fun c => (1 - wt i) * img (tr i) c + wt i * img (br i) c)) base)
          (tr i0) x =
        (1 - wt i0) * img (tr i0) x + wt i0 * img (br i0) x := by
  intro l
  induction l with
  | nil => intro base i0 x _ hmem _; exact absurd hmem (by simp)
  | cons i t ih =>
      intro base i0 x hnd hmem huniq
      rw [List.foldl_cons]
      rcases List.mem_cons.mp hmem with rfl | hmem'
      · -- i0 is the head; no later step rewrites its row
        have hnotin : i0 ∉ t := (List.nodup_cons.mp hnd).1
        rw [foldRow_preserve tr _ t _ (tr i0) x ?_]
        · simp [updRow]
        · intro j hj hc
          have := huniq j (List.mem_cons_of_mem _ hj) hc.symm
          subst this
          exact hnotin hj
      · exact ih _ i0 x (List.nodup_cons.mp hnd).2 hmem'
          (fun j hj => huniq j (List.mem_cons_of_mem _ hj))

theorem foldRow_fast_eval (tr br : ℕ → ℕ) (wt : ℕ → ℝ) :
    ∀ (l : List ℕ) (base : Img) (i0 x : ℕ), l.Nodup → i0 ∈ l →
      (∀ j ∈ l, tr j = tr i0 → j = i0) → (∀ j ∈ l, tr j ≠ br i0) →
      (l.foldl (fun acc i => updRow acc (tr i)
        (fun c => (1 - wt i) * acc (tr i) c + wt i * acc (br i) c)) base)
          (tr i0) x =
        (1 - wt i0) * base (tr i0) x + wt i0 * base (br i0) x := by
  intro l
  induction l with
  | nil => intro base i0 x _ hmem _ _; exact absurd hmem (by simp)
  | cons i t ih =>
      intro base i0 x hnd hmem huniq hdisj
      rw [List.foldl_cons]
      rcases List.mem_cons.mp hmem with rfl | hmem'
      · have hnotin : i0 ∉ t := (List.nodup_cons.mp hnd).1
        rw [foldRow_preserve tr _ t _ (tr i0) x ?_]
        · simp [updRow]
        · intro j hj hc
          have := huniq j (List.mem_cons_of_mem _ hj) hc.symm
          subst this
          exact hnotin hj
      · have hne : tr i ≠ tr i0 := by
          intro hc
          have := huniq i (List.mem_cons_self _ _) hc
          subst this
          exact (List.nodup_cons.mp hnd).1 hmem'
        have hne2 : tr i ≠ br i0 := hdisj i (List.mem_cons_self _ _)
        rw [ih _ i0 x (List.nodup_cons.mp hnd).2 hmem'
          (fun j hj => huniq j (List.mem_cons_of_mem _ hj))
          (fun j hj => hdisj j (List.mem_cons_of_mem _ hj))]
        simp [updRow, Ne.symm hne, Ne.symm hne2]

theorem modSub_eq (n c i : ℕ) (h1 : i + 1 ≤ c) (h2 : c < n) :
    (((c : ℤ) - ((i : ℤ) + 1)) % (n : ℤ)).toNat = c - (i + 1) := by
  have he : ((c : ℤ) - ((i : ℤ) + 1)) % (n : ℤ) = (c : ℤ) - ((i : ℤ) + 1) :=
    Int.emod_eq_of_lt (by omega) (by omega)
  rw [he]
  omega

theorem modAdd_eq (n c i : ℕ) (h1 : c + (i + 1) < n) :
    (((c : ℤ) + ((i : ℤ) + 1)) % (n : ℤ)).toNat = c + (i + 1) := by
  have he : ((c : ℤ) + ((i : ℤ) + 1)) % (n : ℤ) = (c : ℤ) + ((i : ℤ) + 1) :=
    Int.emod_eq_of_lt (by omega) (by omega)
  rw [he]
  omega

theorem seamTopRow_eq (h cy i : ℕ) (h1 : i + 1 ≤ cy) (h2 : cy < h) :
    seamTopRow h cy i = cy - (i + 1) := modSub_eq h cy i h1 h2

theorem seamBotRow_eq (h cy i : ℕ) (h1 : cy + (i + 1) < h) :
    seamBotRow h cy i = cy + (i + 1) := modAdd_eq h cy i h1

theorem seamLeftCol_eq (w cx i : ℕ) (h1 : i + 1 ≤ cx) (h2 : cx < w) :
    seamLeftCol w cx i = cx - (i + 1) := modSub_eq w cx i h1 h2

theorem blendWidth_le (h w : ℕ) (strength : ℚ) (hs0 : 0 ≤ strength)
    (hs1 : strength ≤ 1) : blendWidth h w strength ≤ min h w / 4 := by
  unfold blendWidth
  rw [pyInt_of_nonneg (by positivity)]
  have h1 : ((min h w / 4 : ℕ) : ℚ) * strength ≤ ((min h w / 4 : ℕ) : ℚ) :=
    mul_le_of_le_one_right (by positivity) hs1
  have h2 : ⌊((min h w / 4 : ℕ) : ℚ) * strength⌋ ≤ ((min h w / 4 : ℕ) : ℤ) := by
    calc ⌊((min h w / 4 : ℕ) : ℚ) * strength⌋
        ≤ ⌊((min h w / 4 : ℕ) : ℚ)⌋ := Int.floor_le_floor h1
      _ = ((min h w / 4 : ℕ) : ℤ) := Int.floor_natCast _
  omega

/-- C9 (amended): the JIT kernel `blend_seams_fast` agrees with the
reference symmetric-mode `blend_seams` at every pixel that is not in the
intersection of the vertical-pass row band and the horizontal-pass column
band; inside that cross intersection they differ in general (see the
counterexample), because the reference vertical pass re-reads the original
image while the JIT vertical pass re-reads the horizontally blended buffer. -/
theorem blendSeamsFast_eq_ref_off_cross (blur : ℕ → Img → Img) (img : Img)
    (h w : ℕ) (strength sm : ℚ) (hs0 : 0 ≤ strength) (hs1 : strength ≤ 1)
    (y x : ℕ)
    (hyx : ¬((h / 2 - blendWidth h w strength / 2 ≤ y ∧ y < h / 2) ∧
      (w / 2 - blendWidth h w strength / 2 ≤ x ∧ x < w / 2))) :
    blendSeamsFast img h w strength sm y x =
      blendSeams blur img h w strength sm true y x := by
  by_cases hbw : blendWidth h w strength < 2
  · unfold blendSeamsFast blendSeams
    rw [if_pos hbw, if_pos hbw]
  · have hble : blendWidth h w strength ≤ min h w / 4 := blendWidth_le h w strength hs0 hs1
    have hminh : min h w ≤ h := min_le_left _ _
    have hminw : min h w ≤ w := min_le_right _ _
    have hb2 : ¬(blendWidth h w strength / 2 < 1) := by omega
    unfold blendSeamsFast blendSeams
    rw [if_neg hbw, if_neg hb2, if_neg hbw, if_pos rfl]
    -- abbreviations
    have hhb_cy : blendWidth h w strength / 2 + (h / 2) < h := by omega
    have hhb_le_cy : blendWidth h w strength / 2 ≤ h / 2 := by omega
    have hhb_le_cx : blendWidth h w strength / 2 ≤ w / 2 := by omega
    have hcy_lt : h / 2 < h := by omega
    have hcx_lt : w / 2 < w := by omega
    set hb := blendWidth h w strength / 2 with hhbdef
    set cy := h / 2 with hcydef
    set cx := w / 2 with hcxdef
    by_cases hy : cy - hb ≤ y ∧ y < cy
    · -- y is a written row: x must be outside the column band
      have hx : ¬(cx - hb ≤ x ∧ x < cx) := fun hc => hyx ⟨hy, hc⟩
      -- the unique offset writing row y
      have hhb1 : 1 ≤ hb := by omega
      set i0 := cy - y - 1 with hi0def
      have hi0 : i0 < hb := by omega
      have hyeq : y = seamTopRow h cy i0 := by
        rw [seamTopRow_eq h cy i0 (by omega) hcy_lt]
        omega
      have huniq : ∀ j ∈ List.range hb, seamTopRow h cy j = seamTopRow h cy i0 → j = i0 := by
        intro j hj hc
        have hjlt := List.mem_range.mp hj
        rw [seamTopRow_eq h cy j (by omega) hcy_lt,
          seamTopRow_eq h cy i0 (by omega) hcy_lt] at hc
        omega
      have hdisj : ∀ j ∈ List.range hb, seamTopRow h cy j ≠ seamBotRow h cy i0 := by
        intro j hj
        have hjlt := List.mem_range.mp hj
        rw [seamTopRow_eq h cy j (by omega) hcy_lt,
          seamBotRow_eq h cy i0 (by omega)]
        omega
      have hcolpres : ∀ i ∈ List.range hb, x ≠ seamLeftCol w cx i := by
        intro i hi
        have hilt := List.mem_range.mp hi
        rw [seamLeftCol_eq w cx i (by omega) hcx_lt]
        omega
      have hR1 : ∀ y', hPassSeam img w cx hb sm y' x = img y' x := by
        intro y'
        unfold hPassSeam
        exact foldCol_preserve (seamLeftCol w cx) _ (List.range hb) img y' x hcolpres
      rw [hyeq]
      unfold vPassFastSeam vPassRefSeam
      rw [foldRow_fast_eval (seamTopRow h cy) (seamBotRow h cy) (seamWeight hb sm)
        (List.range hb) (hPassSeam img w cx hb sm) i0 x (List.nodup_range hb)
        (List.mem_range.mpr hi0) huniq hdisj,
        foldRow_ref_eval (seamTopRow h cy) (seamBotRow h cy) (seamWeight hb sm) img
        (List.range hb) (hPassSeam img w cx hb sm) i0 x (List.nodup_range hb)
        (List.mem_range.mpr hi0) huniq,
        hR1, hR1]
    · -- y is untouched by both vertical passes
      have hrowpres : ∀ i ∈ List.range hb, y ≠ seamTopRow h cy i := by
        intro i hi
        have hilt := List.mem_range.mp hi
        rw [seamTopRow_eq h cy i (by omega) hcy_lt]
        omega
      unfold vPassFastSeam vPassRefSeam
      rw [foldRow_preserve (seamTopRow h cy) _ (List.range hb)
          (hPassSeam img w cx hb sm) y x hrowpres,
        foldRow_preserve (seamTopRow h cy) _ (List.range hb)
          (hPassSeam img w cx hb sm) y x hrowpres]

/-- Witness for `blendSeamsFast_eq_ref_off_cross` at an 8×8 zero image,
`blend_strength = 1`, pixel `(0,0)`. -/
theorem blendSeamsFast_eq_ref_off_cross_witness :
    blendSeamsFast (fun _ _ => (0 : ℝ)) 8 8 1 0 0 0 =
      blendSeams (fun _ f => f) (fun _ _ => (0 : ℝ)) 8 8 1 0 true 0 0 :=
  blendSeamsFast_eq_ref_off_cross (fun _ f => f) (fun _ _ => (0 : ℝ)) 8 8 1 0
    (by norm_num) (by norm_num) 0 0
    (by
      intro hc
      have h1 := hc.1.1
      have h2 : blendWidth 8 8 1 = 2 := by
        unfold blendWidth
        rw [show ((min 8 8 / 4 : ℕ) : ℚ) * 1 = 2 by norm_num,
          pyInt_of_nonneg (by norm_num)]
        rw [show ⌊(2 : ℚ)⌋ = 2 by norm_num]
        rfl
      rw [h2] at h1
      omega)

/-- C9 counterexample: on an 8×8 image that is 100 at pixel `(5,5)` and 0
elsewhere, with `blend_strength = 1` and `smoothness = 0`, the JIT variant
gives 100 at pixel `(3,3)` while the reference symmetric `blend_seams`
gives 0 — far beyond any floating-point tolerance. -/
theorem blendSeamsFast_counterexample :
    blendSeamsFast (fun y x => if y = 5 ∧ x = 5 then (100 : ℝ) else 0)
      8 8 1 0 3 3 = 100 ∧
    blendSeams (fun _ f => f) (fun y x => if y = 5 ∧ x = 5 then (100 : ℝ) else 0)
      8 8 1 0 true 3 3 = 0 ∧
    (100 : ℝ) ≠ 0 := by
  have hbw : blendWidth 8 8 1 = 2 := by
    unfold blendWidth
    rw [show ((min 8 8 / 4 : ℕ) : ℚ) * 1 = 2 by norm_num,
      pyInt_of_nonneg (by norm_num)]
    rw [show ⌊(2 : ℚ)⌋ = 2 by norm_num]
    rfl
  have hwt : seamWeight 1 0 0 = 1 := by
    unfold seamWeight
    rw [if_neg (by norm_num)]
    norm_num
  have htr : seamTopRow 8 4 0 = 3 := by
    unfold seamTopRow
    norm_num
    rfl
  have hbr : seamBotRow 8 4 0 = 5 := by
    unfold seamBotRow
    norm_num
    rfl
  have hlc : seamLeftCol 8 4 0 = 3 := by
    unfold seamLeftCol
    norm_num
    rfl
  have hrc : seamRightCol 8 4 0 = 5 := by
    unfold seamRightCol
    norm_num
    rfl
  set img : Img := fun y x => if y = 5 ∧ x = 5 then (100 : ℝ) else 0 with himg
  have hR1 : hPassSeam img 8 4 1 0 = updCol img 3
      (fun y => (1 - seamWeight 1 0 0) * img y 3 + seamWeight 1 0 0 * img y 5) := by
    unfold hPassSeam
    rw [show List.range 1 = [0] from rfl, List.foldl_cons, List.foldl_nil, hlc, hrc]
  refine ⟨?_, ?_, by norm_num⟩
  · unfold blendSeamsFast
    rw [hbw, if_neg (by norm_num), if_neg (by norm_num)]
    show vPassFastSeam (hPassSeam img 8 (8/2) (2/2) 0) 8 (8/2) (2/2) 0 3 3 = 100
    norm_num
    unfold vPassFastSeam
    rw [show List.range 1 = [0] from rfl, List.foldl_cons, List.foldl_nil, htr, hbr, hwt, hR1]
    simp [updRow, updCol, himg, hwt]
  · unfold blendSeams
    rw [hbw, if_neg (by norm_num), if_pos rfl]
    show vPassRefSeam img (hPassSeam img 8 (8/2) (2/2) 0) 8 (8/2) (2/2) 0 3 3 = 0
    norm_num
    unfold vPassRefSeam
    rw [show List.range 1 = [0] from rfl, List.foldl_cons, List.foldl_nil, htr, hbr, hwt, hR1]
    simp [updRow, updCol, himg, hwt]

/-! ## `seamless.py` — `SeamlessProcessor._preserve_color_balance`

One channel is modelled as the flat list of its pixel values (`np.mean` /
`np.std` reduce over the whole channel; `np.std` is the population standard
deviation).  Images are float-valued, so the final `astype(original.dtype)`
is the identity; the `np.clip(..., 0, 255)` is kept. -/

/-- `np.mean` of a channel. -/
noncomputable def listMean (l : List ℝ) : ℝ := l.sum / l.length

/-- Population variance of a channel (`np.std` squared). -/
noncomputable def listVar (l : List ℝ) : ℝ :=
  ((l.map (fun x => (x - listMean l) ^ 2)).sum) / l.length

/-- `np.std` of a channel. -/
noncomputable def listStd (l : List ℝ) : ℝ := Real.sqrt (listVar l)

/-- `np.clip(v, 0, 255)`. -/
def npClip255 (v : ℝ) : ℝ := min 255 (max 0 v)

/-- `_preserve_color_balance` on one channel: when the processed channel's
std is positive, normalise it and rescale to the original's mean/std; then
clip to `[0, 255]`. -/
noncomputable def colorBalanceChannel (proc orig : List ℝ) : List ℝ :=
  let rescaled :=
    if 0 < listStd proc then
      proc.map (fun x =>
        (x - listMean proc) / listStd proc * listStd orig + listMean orig)
    else proc
  rescaled.map npClip255

theorem sum_map_affine (a b : ℝ) (l : List ℝ) :
    (l.map (fun x => a * x + b)).sum = a * l.sum + b * l.length := by
  induction l with
  | nil => simp
  | cons v t ih =>
      simp only [List.map_cons, List.sum_cons, ih, List.length_cons]
      push_cast
      ring

theorem listMean_map_affine (a b : ℝ) (l : List ℝ) (hne : l ≠ []) :
    listMean (l.map (fun x => a * x + b)) = a * listMean l + b := by
  have hlen : (l.length : ℝ) ≠ 0 := by
    simp only [ne_eq, Nat.cast_eq_zero, List.length_eq_zero]
    exact hne
  unfold listMean
  rw [List.length_map, sum_map_affine]
  field_simp

theorem sum_map_sq_affine (a b m : ℝ) (l : List ℝ) :
    (l.map (fun x => (a * x + b - (a * m + b)) ^ 2)).sum =
      a ^ 2 * (l.map (fun x => (x - m) ^ 2)).sum := by
  induction l with
  | nil => simp
  | cons v t ih =>
      simp only [List.map_cons, List.sum_cons, ih]
      ring

theorem listVar_map_affine (a b : ℝ) (l : List ℝ) (hne : l ≠ []) :
    listVar (l.map (fun x => a * x + b)) = a ^ 2 * listVar l := by
  unfold listVar
  rw [listMean_map_affine a b l hne, List.length_map, List.map_map]
  have hcomp : ((fun x => (x - (a * listMean l + b)) ^ 2) ∘ fun x => a * x + b)
      = fun x => (a * x + b - (a * listMean l + b)) ^ 2 := rfl
  rw [hcomp, sum_map_sq_affine]
  ring

theorem listVar_nonneg (l : List ℝ) : 0 ≤ listVar l := by
  unfold listVar
  apply div_nonneg
  · apply List.sum_nonneg
    intro v hv
    obtain ⟨x, _, rfl⟩ := List.mem_map.mp hv
    positivity
  · positivity

/-- C5 (amended): provided no rescaled value leaves `[0, 255]` (the clip is
inactive), the balanced channel's mean and variance (hence standard
deviation) equal the original's exactly; and a channel with zero standard
deviation is returned unchanged.  When the clip is active the statistics can
shift (see the counterexample). -/
theorem colorBalance_preserves_stats (proc orig : List ℝ) (hne : proc ≠ [])
    (hrange : ∀ v ∈ proc, 0 ≤ v ∧ v ≤ 255) :
    (0 < listStd proc →
      (∀ v ∈ proc,
        0 ≤ (v - listMean proc) / listStd proc * listStd orig + listMean orig ∧
          (v - listMean proc) / listStd proc * listStd orig + listMean orig ≤ 255) →
      listMean (colorBalanceChannel proc orig) = listMean orig ∧
      listVar (colorBalanceChannel proc orig) = listVar orig) ∧
    (listStd proc = 0 → colorBalanceChannel proc orig = proc) := by
  constructor
  · intro hstd hnoclip
    have hvarp_pos : 0 < listVar proc := by
      by_contra hc
      push_neg at hc
      have : listVar proc = 0 := le_antisymm hc (listVar_nonneg proc)
      rw [listStd, this, Real.sqrt_zero] at hstd
      exact lt_irrefl 0 hstd
    have hres : colorBalanceChannel proc orig = proc.map (fun x =>
        (x - listMean proc) / listStd proc * listStd orig + listMean orig) := by
      unfold colorBalanceChannel
      rw [if_pos hstd, List.map_map]
      apply List.map_congr_left
      intro x hx
      obtain ⟨h0, h255⟩ := hnoclip x hx
      show npClip255 _ = _
      unfold npClip255
      rw [max_eq_right h0, min_eq_right h255]
    have hfeq : (fun x => (x - listMean proc) / listStd proc * listStd orig +
        listMean orig) = fun x => (listStd orig / listStd proc) * x +
        (listMean orig - listMean proc * (listStd orig / listStd proc)) := by
      funext x
      ring
    rw [hres, hfeq]
    constructor
    · rw [listMean_map_affine _ _ _ hne]
      ring
    · rw [listVar_map_affine _ _ _ hne]
      have hsq : (listStd orig / listStd proc) ^ 2 = listVar orig / listVar proc := by
        rw [div_pow, listStd, listStd, Real.sq_sqrt (listVar_nonneg orig),
          Real.sq_sqrt (listVar_nonneg proc)]
      rw [hsq]
      field_simp
  · intro hstd0
    unfold colorBalanceChannel
    rw [if_neg (by rw [hstd0]; exact lt_irrefl 0)]
    have : proc.map npClip255 = proc.map id := by
      apply List.map_congr_left
      intro x hx
      obtain ⟨h0, h255⟩ := hrange x hx
      show npClip255 x = x
      unfold npClip255
      rw [max_eq_right h0, min_eq_right h255]
    rw [this, List.map_id]

/-- Witness for `colorBalance_preserves_stats` on the two-pixel channel
`[0, 10]` balanced against itself. -/
theorem colorBalance_preserves_stats_witness :
    (0 < listStd [(0 : ℝ), 10] →
      (∀ v ∈ [(0 : ℝ), 10],
        0 ≤ (v - listMean [(0 : ℝ), 10]) / listStd [(0 : ℝ), 10] *
            listStd [(0 : ℝ), 10] + listMean [(0 : ℝ), 10] ∧
          (v - listMean [(0 : ℝ), 10]) / listStd [(0 : ℝ), 10] *
            listStd [(0 : ℝ), 10] + listMean [(0 : ℝ), 10] ≤ 255) →
      listMean (colorBalanceChannel [(0 : ℝ), 10] [(0 : ℝ), 10]) =
        listMean [(0 : ℝ), 10] ∧
      listVar (colorBalanceChannel [(0 : ℝ), 10] [(0 : ℝ), 10]) =
        listVar [(0 : ℝ), 10]) ∧
    (listStd [(0 : ℝ), 10] = 0 →
      colorBalanceChannel [(0 : ℝ), 10] [(0 : ℝ), 10] = [(0 : ℝ), 10]) :=
  colorBalance_preserves_stats [(0 : ℝ), 10] [(0 : ℝ), 10] (by simp)
    (by
      intro v hv
      simp only [List.mem_cons, List.not_mem_nil, or_false] at hv
      rcases hv with rfl | rfl <;> norm_num)

/-- C5 counterexample: balancing the five-pixel channel `[0,0,0,0,5]`
against the original `[255,255,255,255,0]` rescales the outlier to 408,
which the clip cuts to 255; the result's mean is `173.4`, not the
original's `204`. -/
theorem colorBalance_clip_counterexample :
    listMean (colorBalanceChannel [(0 : ℝ), 0, 0, 0, 5]
      [(255 : ℝ), 255, 255, 255, 0]) = 867 / 5 ∧
    listMean [(255 : ℝ), 255, 255, 255, 0] = 204 ∧ (867 / 5 : ℝ) ≠ 204 := by
  have hμp : listMean [(0 : ℝ), 0, 0, 0, 5] = 1 := by
    unfold listMean
    norm_num
  have hvarp : listVar [(0 : ℝ), 0, 0, 0, 5] = 4 := by
    unfold listVar
    rw [hμp]
    norm_num
  have hσp : listStd [(0 : ℝ), 0, 0, 0, 5] = 2 := by
    unfold listStd
    rw [hvarp, show (4 : ℝ) = 2 ^ 2 by norm_num, Real.sqrt_sq (by norm_num)]
  have hμo : listMean [(255 : ℝ), 255, 255, 255, 0] = 204 := by
    unfold listMean
    norm_num
  have hvaro : listVar [(255 : ℝ), 255, 255, 255, 0] = 10404 := by
    unfold listVar
    rw [hμo]
    norm_num
  have hσo : listStd [(255 : ℝ), 255, 255, 255, 0] = 102 := by
    unfold listStd
    rw [hvaro, show (10404 : ℝ) = 102 ^ 2 by norm_num, Real.sqrt_sq (by norm_num)]
  refine ⟨?_, hμo, by norm_num⟩
  unfold colorBalanceChannel
  rw [if_pos (by rw [hσp]; norm_num)]
  rw [hμp, hσp, hμo, hσo]
  have hmap : ([(0 : ℝ), 0, 0, 0, 5].map
      (fun x => (x - 1) / 2 * 102 + 204)).map npClip255 =
      [(153 : ℝ), 153, 153, 153, 255] := by
    simp only [List.map_cons, List.map_nil]
    unfold npClip255
    norm_num
  rw [hmap]
  unfold listMean
  norm_num

/-! ## `materialize_methods.py` — `synthesis_overlap`

`cv2.resize(..., interpolation=INTER_LINEAR)` on a float image samples
`src` at `(dst + 1/2) * src_size / dst_size - 1/2` with bilinear weights and
edge replication (sample indices clamped into range).  Images are
float-valued so the final `astype(image.dtype)` is the identity. -/

/-- Clamp an integer sample index into `[0, n-1]`. -/
def clampIdx (z : ℤ) (n : ℕ) : ℕ := (min (max z 0) ((n : ℤ) - 1)).toNat

/-- The source sample coordinate `(dst + 1/2) * src_size / dst_size - 1/2`
used by `INTER_LINEAR` resizing. -/
def srcCoord (i ssz dsz : ℕ) : ℚ := (((i : ℚ) + 1/2) * ssz) / dsz - 1/2

/-- Bilinear (`INTER_LINEAR`) resize of an `sh×sw` image to `dh×dw`. -/
noncomputable def resizeBilinear (src : Img) (sh sw dh dw : ℕ) : Img :=
  fun i j =>
    (1 - ((srcCoord i sh dh - ⌊srcCoord i sh dh⌋ : ℚ) : ℝ)) *
      ((1 - ((srcCoord j sw dw - ⌊srcCoord j sw dw⌋ : ℚ) : ℝ)) *
          src (clampIdx ⌊srcCoord i sh dh⌋ sh) (clampIdx ⌊srcCoord j sw dw⌋ sw)
        + ((srcCoord j sw dw - ⌊srcCoord j sw dw⌋ : ℚ) : ℝ) *
          src (clampIdx ⌊srcCoord i sh dh⌋ sh) (clampIdx (⌊srcCoord j sw dw⌋ + 1) sw))
      + ((srcCoord i sh dh - ⌊srcCoord i sh dh⌋ : ℚ) : ℝ) *
      ((1 - ((srcCoord j sw dw - ⌊srcCoord j sw dw⌋ : ℚ) : ℝ)) *
          src (clampIdx (⌊srcCoord i sh dh⌋ + 1) sh) (clampIdx ⌊srcCoord j sw dw⌋ sw)
        + ((srcCoord j sw dw - ⌊srcCoord j sw dw⌋ : ℚ) : ℝ) *
          src (clampIdx (⌊srcCoord i sh dh⌋ + 1) sh) (clampIdx (⌊srcCoord j sw dw⌋ + 1) sw))

/-- The `np.linspace(1, 0, bw)` gradient value at index `k`, with the
gamma-falloff power applied when `falloff > 0.01`
(`gamma = 1/(falloff*2)`). -/
noncomputable def tOv (bw k : ℕ) (falloff : ℚ) : ℝ :=
  let t : ℚ := if bw ≤ 1 then 1 else ((bw : ℚ) - 1 - (k : ℚ)) / ((bw : ℚ) - 1)
  if 1/100 < falloff then (t : ℝ) ^ (((1 / (2 * falloff)) : ℚ) : ℝ)
  else (t : ℝ)

/-- The X pass of `synthesis_overlap`: when `overlap_x > 0` and
`blend_w = int(w*overlap_x) > 0`, columns `0..blend_w-1` become
`left*(1-t) + right*t` with the right strip starting at `w - blend_w`, and
the width shrinks to `w - blend_w`. -/
noncomputable def xPassOverlap (img : Img) (h w : ℕ) (ox falloff : ℚ) :
    Img × ℕ :=
  if 0 < ox then
    if 0 < (pyInt ((w : ℚ) * ox)).toNat then
      (fun y x =>
        if x < (pyInt ((w : ℚ) * ox)).toNat then
          (1 - tOv (pyInt ((w : ℚ) * ox)).toNat x falloff) * img y x +
            tOv (pyInt ((w : ℚ) * ox)).toNat x falloff *
              img y (w - (pyInt ((w : ℚ) * ox)).toNat + x)
        else img y x,
       w - (pyInt ((w : ℚ) * ox)).toNat)
    else (img, w)
  else (img, w)

/-- The Y pass: same construction on rows, with
`blend_h = int(h_curr * overlap_y)` computed from the current height. -/
noncomputable def yPassOverlap (img : Img) (hcur : ℕ) (oy falloff : ℚ) :
    Img × ℕ :=
  if 0 < oy then
    if 0 < (pyInt ((hcur : ℚ) * oy)).toNat then
      (fun y x =>
        if y < (pyInt ((hcur : ℚ) * oy)).toNat then
          (1 - tOv (pyInt ((hcur : ℚ) * oy)).toNat y falloff) * img y x +
            tOv (pyInt ((hcur : ℚ) * oy)).toNat y falloff *
              img (hcur - (pyInt ((hcur : ℚ) * oy)).toNat + y) x
        else img y x,
       hcur - (pyInt ((hcur : ℚ) * oy)).toNat)
    else (img, hcur)
  else (img, hcur)

/-- `synthesis_overlap(image, overlap_x, overlap_y, falloff)`: X pass, Y
pass (on the X-cropped image, whose height is still `h`), resize back to
`h×w`, clip to `[0, 255]`. -/
noncomputable def synthesis_overlap (img : Img) (h w : ℕ)
    (ox oy falloff : ℚ) : Img :=
  fun y x => npClip255 (resizeBilinear
    (yPassOverlap (xPassOverlap img h w ox falloff).1 h oy falloff).1
    (yPassOverlap (xPassOverlap img h w ox falloff).1 h oy falloff).2
    (xPassOverlap img h w ox falloff).2 h w y x)

theorem clampIdx_natCast (k n : ℕ) (h : k < n) : clampIdx (k : ℤ) n = k := by
  unfold clampIdx
  omega

theorem srcCoord_self (y n : ℕ) (hn : 0 < n) : srcCoord y n n = (y : ℚ) := by
  unfold srcCoord
  have h : ((n : ℚ)) ≠ 0 := by
    exact_mod_cast Nat.pos_iff_ne_zero.mp hn
  field_simp
  ring

theorem resizeBilinear_row_self (src : Img) (sh sw dw : ℕ) (y j : ℕ)
    (hy : y < sh) :
    resizeBilinear src sh sw sh dw y j =
      (1 - ((srcCoord j sw dw - ⌊srcCoord j sw dw⌋ : ℚ) : ℝ)) *
          src y (clampIdx ⌊srcCoord j sw dw⌋ sw)
        + ((srcCoord j sw dw - ⌊srcCoord j sw dw⌋ : ℚ) : ℝ) *
          src y (clampIdx (⌊srcCoord j sw dw⌋ + 1) sw) := by
  unfold resizeBilinear
  have hsc : srcCoord y sh sh = (y : ℚ) :=
    srcCoord_self y sh (lt_of_le_of_lt (Nat.zero_le y) hy)
  rw [hsc, Int.floor_natCast]
  rw [clampIdx_natCast y sh hy]
  have hdy : (((y : ℚ) - ((y : ℕ) : ℤ) : ℚ) : ℝ) = 0 := by
    push_cast
    ring
  rw [hdy]
  ring

theorem resizeBilinear_left_edge (src : Img) (sh sw dw : ℕ) (y : ℕ)
    (hy : y < sh) (h1 : 0 < sw) (h2 : sw < dw) :
    resizeBilinear src sh sw sh dw y 0 = src y 0 := by
  rw [resizeBilinear_row_self src sh sw dw y 0 hy]
  have hdw : (0 : ℚ) < (dw : ℚ) := by
    have hp : 0 < dw := lt_trans h1 h2
    exact_mod_cast hp
  have hq0 : (0 : ℚ) ≤ (sw : ℚ) / dw := by positivity
  have hq1 : (sw : ℚ) / dw < 1 := by
    rw [div_lt_one hdw]
    exact_mod_cast h2
  have heq : srcCoord 0 sw dw = (sw : ℚ) / dw / 2 - 1/2 := by
    unfold srcCoord
    push_cast
    field_simp
    ring
  have hfx0 : ⌊srcCoord 0 sw dw⌋ = -1 := by
    rw [Int.floor_eq_iff, heq]
    constructor
    · push_cast
      linarith
    · push_cast
      linarith
  rw [hfx0]
  have hc2 : clampIdx (-1) sw = 0 := by
    unfold clampIdx
    omega
  have hc3 : clampIdx (-1 + 1) sw = 0 := by
    unfold clampIdx
    omega
  rw [hc2, hc3]
  ring

theorem resizeBilinear_right_edge (src : Img) (sh sw dw : ℕ) (y : ℕ)
    (hy : y < sh) (h1 : 0 < sw) (h2 : sw < dw) :
    resizeBilinear src sh sw sh dw y (dw - 1) = src y (sw - 1) := by
  rw [resizeBilinear_row_self src sh sw dw y (dw - 1) hy]
  have hdw : (0 : ℚ) < (dw : ℚ) := by
    have hp : 0 < dw := lt_trans h1 h2
    exact_mod_cast hp
  have hq0 : (0 : ℚ) ≤ (sw : ℚ) / dw := by positivity
  have hq1 : (sw : ℚ) / dw ≤ 1 := by
    rw [div_le_one hdw]
    exact_mod_cast le_of_lt h2
  have hcast : (((dw - 1 : ℕ) : ℚ)) = (dw : ℚ) - 1 := by
    have hd1 : 1 ≤ dw := by omega
    push_cast [hd1]
    ring
  have heq : srcCoord (dw - 1) sw dw = (sw : ℚ) - (sw : ℚ) / dw / 2 - 1/2 := by
    unfold srcCoord
    rw [hcast]
    field_simp
    ring
  have hfx0 : ⌊srcCoord (dw - 1) sw dw⌋ = (sw : ℤ) - 1 := by
    rw [Int.floor_eq_iff, heq]
    constructor
    · push_cast
      linarith
    · push_cast
      linarith
  rw [hfx0]
  have hc2 : clampIdx ((sw : ℤ) - 1) sw = sw - 1 := by
    unfold clampIdx
    omega
  have hc3 : clampIdx ((sw : ℤ) - 1 + 1) sw = sw - 1 := by
    unfold clampIdx
    omega
  rw [hc2, hc3]
  ring

theorem tOv_first (bw : ℕ) (falloff : ℚ) (hbw : 1 ≤ bw) :
    tOv bw 0 falloff = 1 := by
  unfold tOv
  have ht : (if bw ≤ 1 then (1 : ℚ) else ((bw : ℚ) - 1 - ((0 : ℕ) : ℚ)) / ((bw : ℚ) - 1)) = 1 := by
    by_cases h1 : bw ≤ 1
    · rw [if_pos h1]
    · rw [if_neg h1]
      have hne : ((bw : ℚ) - 1) ≠ 0 := by
        have : 2 ≤ bw := by omega
        have h2 : (2 : ℚ) ≤ (bw : ℚ) := by exact_mod_cast this
        intro hc
        nlinarith
      push_cast
      field_simp
  rw [ht]
  by_cases hf : 1/100 < falloff
  · rw [if_pos hf]
    push_cast
    rw [Real.one_rpow]
  · rw [if_neg hf]
    push_cast
    rfl

theorem tOv_last (bw : ℕ) (falloff : ℚ) (hbw : 2 ≤ bw) :
    tOv bw (bw - 1) falloff = 0 := by
  unfold tOv
  have ht : (if bw ≤ 1 then (1 : ℚ)
      else ((bw : ℚ) - 1 - ((bw - 1 : ℕ) : ℚ)) / ((bw : ℚ) - 1)) = 0 := by
    rw [if_neg (by omega)]
    have hcast : ((bw - 1 : ℕ) : ℚ) = (bw : ℚ) - 1 := by
      have h1 : 1 ≤ bw := by omega
      push_cast [h1]
      ring
    rw [hcast]
    simp
  rw [ht]
  by_cases hf : 1/100 < falloff
  · rw [if_pos hf]
    push_cast
    rw [Real.zero_rpow]
    have hf0 : (0 : ℚ) < 1 / (2 * falloff) := by
      have : (0 : ℚ) < falloff := lt_trans (by norm_num) hf
      positivity
    exact_mod_cast ne_of_gt hf0
  · rw [if_neg hf]
    push_cast
    rfl

/-- C2 (amended): with a horizontal overlap (`blend_w ≥ 1`, image wide
enough) and a trivial vertical pass, the output's left column equals the
original's column `w - blend_w` and its right column equals the original's
column `w - blend_w - 1` — two *adjacent* source columns, so the output is
continuous when tiled; the left and right columns themselves are not equal
in general (see the counterexample). -/
theorem synthesis_overlap_edge_columns (img : Img) (h w : ℕ)
    (ox oy falloff : ℚ)
    (himg : ∀ y x, 0 ≤ img y x ∧ img y x ≤ 255)
    (hox : 0 < ox) (bw : ℕ) (hbwdef : bw = (pyInt ((w : ℚ) * ox)).toNat)
    (hbw1 : 1 ≤ bw) (hbw2 : 2 * bw ≤ w) (hbw3 : bw + 2 ≤ w)
    (hoy : (pyInt ((h : ℚ) * oy)).toNat = 0 ∨ oy ≤ 0)
    (y : ℕ) (hy : y < h) :
    synthesis_overlap img h w ox oy falloff y 0 = img y (w - bw) ∧
    synthesis_overlap img h w ox oy falloff y (w - 1) = img y (w - bw - 1) := by
  set F : Img := fun y x =>
    if x < bw then
      (1 - tOv bw x falloff) * img y x + tOv bw x falloff * img y (w - bw + x)
    else img y x with hF
  have hxpass : xPassOverlap img h w ox falloff = (F, w - bw) := by
    rw [hF]
    unfold xPassOverlap
    rw [← hbwdef, if_pos hox, if_pos (by omega)]
  have hypass : ∀ G : Img, yPassOverlap G h oy falloff = (G, h) := by
    intro G
    unfold yPassOverlap
    rcases hoy with h0 | hneg
    · by_cases hp : 0 < oy
      · rw [if_pos hp, h0, if_neg (lt_irrefl 0)]
      · rw [if_neg hp]
    · rw [if_neg (not_lt.mpr hneg)]
  have hres : ∀ xx, synthesis_overlap img h w ox oy falloff y xx =
      npClip255 (resizeBilinear F h (w - bw) h w y xx) := by
    intro xx
    unfold synthesis_overlap
    rw [hxpass, hypass]
  constructor
  · rw [hres 0,
      resizeBilinear_left_edge F h (w - bw) w y hy (by omega) (by omega)]
    have hF0 : F y 0 = img y (w - bw) := by
      simp only [hF]
      rw [if_pos (by omega : (0 : ℕ) < bw), tOv_first bw falloff hbw1,
        Nat.add_zero]
      ring
    rw [hF0]
    unfold npClip255
    obtain ⟨ha, hb⟩ := himg y (w - bw)
    rw [max_eq_right ha, min_eq_right hb]
  · rw [hres (w - 1),
      resizeBilinear_right_edge F h (w - bw) w y hy (by omega) (by omega)]
    have hFr : F y (w - bw - 1) = img y (w - bw - 1) := by
      simp only [hF]
      by_cases hcase : w - bw - 1 < bw
      · have hbw2' : 2 ≤ bw := by omega
        have hbweq : w - bw - 1 = bw - 1 := by omega
        have htv : tOv bw (w - bw - 1) falloff = 0 := by
          rw [hbweq]
          exact tOv_last bw falloff hbw2'
        rw [if_pos hcase, htv]
        ring
      · rw [if_neg hcase]
    rw [hFr]
    unfold npClip255
    obtain ⟨ha, hb⟩ := himg y (w - bw - 1)
    rw [max_eq_right ha, min_eq_right hb]

/-- Witness for `synthesis_overlap_edge_columns`: constant image `7`,
`1×5`, `overlap_x = 2/5`, `overlap_y = 0`. -/
theorem synthesis_overlap_edge_columns_witness :
    synthesis_overlap (fun _ _ => (7 : ℝ)) 1 5 (2/5) 0 (1/2) 0 0 =
      (fun _ _ => (7 : ℝ)) 0 (5 - 2) ∧
    synthesis_overlap (fun _ _ => (7 : ℝ)) 1 5 (2/5) 0 (1/2) 0 (5 - 1) =
      (fun _ _ => (7 : ℝ)) 0 (5 - 2 - 1) :=
  synthesis_overlap_edge_columns (fun _ _ => (7 : ℝ)) 1 5 (2/5) 0 (1/2)
    (fun _ _ => ⟨by norm_num, by norm_num⟩) (by norm_num) 2
    (by
      rw [show ((5 : ℕ) : ℚ) * (2/5) = 2 by norm_num,
        pyInt_of_nonneg (by norm_num), show ⌊(2 : ℚ)⌋ = 2 by norm_num]
      rfl)
    (by norm_num) (by norm_num) (by norm_num) (Or.inr le_rfl) 0 (by norm_num)

/-- C2 counterexample: on the 1×4 image `[0, 100, 200, 50]` with
`overlap_x = overlap_y = 1/2 > 0` and `falloff = 1/2`, the output's left
column is 200 and its right column is 100 — a gap of 100 intensity levels,
not equality within any blend tolerance. -/
theorem synthesis_overlap_columns_counterexample :
    synthesis_overlap
      (fun _ x => if x = 0 then (0 : ℝ) else if x = 1 then 100
        else if x = 2 then 200 else 50) 1 4 (1/2) (1/2) (1/2) 0 0 = 200 ∧
    synthesis_overlap
      (fun _ x => if x = 0 then (0 : ℝ) else if x = 1 then 100
        else if x = 2 then 200 else 50) 1 4 (1/2) (1/2) (1/2) 0 3 = 100 ∧
    (200 : ℝ) ≠ 100 := by
  set I : Img := fun _ x => if x = 0 then (0 : ℝ) else if x = 1 then 100
    else if x = 2 then 200 else 50 with hI
  have hbw : (pyInt (((4 : ℕ) : ℚ) * (1/2))).toNat = 2 := by
    rw [show ((4 : ℕ) : ℚ) * (1/2) = 2 by norm_num,
      pyInt_of_nonneg (by norm_num), show ⌊(2 : ℚ)⌋ = 2 by norm_num]
    rfl
  have hbh : (pyInt (((1 : ℕ) : ℚ) * (1/2))).toNat = 0 := by
    rw [show ((1 : ℕ) : ℚ) * (1/2) = 1/2 by norm_num,
      pyInt_of_nonneg (by norm_num), show ⌊(1/2 : ℚ)⌋ = 0 by norm_num]
    rfl
  set F : Img := fun y x =>
    if x < 2 then
      (1 - tOv 2 x (1/2)) * I y x + tOv 2 x (1/2) * I y (4 - 2 + x)
    else I y x with hF
  have hxpass : xPassOverlap I 1 4 (1/2) (1/2) = (F, 4 - 2) := by
    rw [hF]
    unfold xPassOverlap
    rw [hbw, if_pos (by norm_num), if_pos (by norm_num)]
  have hypass : ∀ G : Img, yPassOverlap G 1 (1/2) (1/2) = (G, 1) := by
    intro G
    unfold yPassOverlap
    rw [if_pos (by norm_num), hbh, if_neg (lt_irrefl 0)]
  have hres : ∀ xx, synthesis_overlap I 1 4 (1/2) (1/2) (1/2) 0 xx =
      npClip255 (resizeBilinear F 1 (4 - 2) 1 4 0 xx) := by
    intro xx
    unfold synthesis_overlap
    rw [hxpass, hypass]
  have ht0 : tOv 2 0 (1/2) = 1 := tOv_first 2 (1/2) (by norm_num)
  have ht1 : tOv 2 1 (1/2) = 0 := tOv_last 2 (1/2) (by norm_num)
  have hF0 : F 0 0 = 200 := by
    simp only [hF]
    rw [if_pos (by norm_num : (0 : ℕ) < 2), ht0]
    simp only [hI]
    norm_num
  have hF1 : F 0 1 = 100 := by
    simp only [hF]
    rw [if_pos (by norm_num : (1 : ℕ) < 2), ht1]
    simp only [hI]
    norm_num
  refine ⟨?_, ?_, by norm_num⟩
  · rw [hres 0]
    have hL : resizeBilinear F 1 (4 - 2) 1 4 0 0 = F 0 0 :=
      resizeBilinear_left_edge F 1 (4 - 2) 4 0 (by norm_num) (by norm_num)
        (by norm_num)
    rw [hL, hF0]
    unfold npClip255
    norm_num
  · rw [hres 3]
    have hR : resizeBilinear F 1 (4 - 2) 1 4 0 3 = F 0 1 := by
      have hRe := resizeBilinear_right_edge F 1 (4 - 2) 4 0 (by norm_num)
        (by norm_num) (by norm_num)
      norm_num at hRe
      exact hRe
    rw [hR, hF1]
    unfold npClip255
    norm_num

/-! ## `materialize_methods.py` — `synthesis_splat` and
`seamless.py` — `SeamlessProcessor._process_splat`

The two external numeric kernels (`cv2.getRotationMatrix2D` +
`cv2.warpAffine`, taken together as one rotation `warp`, and NumPy's
MT19937 `RandomState`) are parameters of the model, universally quantified
in the theorems: `RandomState(seed)` is a pure function of its seed, which
the structure `RandomBackend` captures, and `synthesis_splat` constructs
its generator locally from the constant seed 42.  The ambient interpreter
state a second invocation could observe (e.g. the global NumPy RNG) is
modelled by an explicit `world` argument that the embedded code, like the
source, never reads. -/

/-- A deterministic pseudo-random backend: NumPy's `RandomState`
interface as used by `synthesis_splat` (`rand`, `randint`, `shuffle`),
seeded from an integer. -/
structure RandomBackend where
  S : Type
  seed : ℕ → S
  rand : S → ℚ × S
  randint : S → ℕ → ℕ × S
  shuffle : List (ℕ × ℕ) → S → List (ℕ × ℕ) × S

/-- `create_falloff_mask(shape, falloff, circular=True)`: smoothstepped
inverted radial distance, sharpened by `mask ** (1/max(0.1, falloff))` when
`falloff > 0.01`, clipped to `[0,1]`. -/
noncomputable def createFalloffMaskCircular (h w : ℕ) (falloff : ℚ) : Img :=
  fun y x =>
    let ny : ℚ := ((y : ℚ) - (h : ℚ) / 2) / ((h : ℚ) / 2)
    let nx : ℚ := ((x : ℚ) - (w : ℚ) / 2) / ((w : ℚ) / 2)
    let dist : ℝ := Real.sqrt (((nx : ℝ)) ^ 2 + ((ny : ℝ)) ^ 2)
    let m0 : ℝ := 1 - min dist 1
    let m1 : ℝ := m0 * m0 * (3 - 2 * m0)
    let m2 : ℝ :=
      if 1/100 < falloff then m1 ^ (((1 / max (1/10) falloff) : ℚ) : ℝ) else m1
    min 1 (max 0 m2)

/-- Canvas initialisation of `synthesis_splat`: when the target exceeds the
source in either dimension, `np.tile` the source
`ceil(th/h) × ceil(tw/w)` times and crop to the target (out-of-range
reads yield 0, matching the crop); otherwise `cv2.resize` the source to the
target. -/
noncomputable def splatCanvasInit (img : Img) (h w th tw : ℕ) : Img :=
  if h < th ∨ w < tw then
    fun y x =>
      if y < ((th + h - 1) / h) * h ∧ x < ((tw + w - 1) / w) * w then
        img (y % h) (x % w)
      else 0
  else resizeBilinear img h w th tw

/-- The spec's claimed canvas initialisation, for comparison: a solid fill
of the source's mean color. -/
noncomputable def meanColorSpec (img : Img) (h w : ℕ) : ℝ :=
  ((List.range h).map (fun y => ((List.range w).map (fun x => img y x)).sum)).sum
    / ((h : ℝ) * (w : ℝ))

/-- The pre-rotation angle of patch-bank variant `i`. -/
def splatAngle (nv : ℕ) (rotation rand_rot : ℚ) (i : ℕ) : ℚ :=
  if nv = 1 then rotation
  else rotation + (((i : ℚ) / ((nv : ℚ) - 1)) - 1/2) * rand_rot * 360

/-- Patch-bank entry: the source patch and its falloff mask, rotated by
`warp` when `abs(angle) > 0.1`. -/
noncomputable def splatPatch (warp : ℚ → Img → Img) (img : Img) (h w : ℕ)
    (falloff angle : ℚ) : Img × Img :=
  if 1/10 < |angle| then
    (warp angle img, warp angle (createFalloffMaskCircular h w falloff))
  else (img, createFalloffMaskCircular h w falloff)

/-- `blend_clipped(y, x, p_img, p_msk)`: alpha-composite an `ph×pw` patch
placed at `(top, left)` onto the canvas, clipped to the canvas bounds
(`canvas = canvas + (patch - canvas) * alpha` on the overlap). -/
noncomputable def blendClipped (canvas : Img) (th tw ph pw : ℕ)
    (top left : ℤ) (p m : Img) : Img :=
  if max 0 top < min (th : ℤ) (top + ph) ∧
      max 0 left < min (tw : ℤ) (left + pw) then
    fun Y X =>
      if max 0 top ≤ (Y : ℤ) ∧ (Y : ℤ) < min (th : ℤ) (top + ph) ∧
          max 0 left ≤ (X : ℤ) ∧ (X : ℤ) < min (tw : ℤ) (left + pw) then
        canvas Y X + (p ((Y : ℤ) - top).toNat ((X : ℤ) - left).toNat
          - canvas Y X) * m ((Y : ℤ) - top).toNat ((X : ℤ) - left).toNat
      else canvas Y X
  else canvas

/-- One cell of the splatting loop: two `rand()` draws for the wobbled
center, a `randint` patch pick, the main draw, and the up-to-eight toroidal
wrap draws. -/
noncomputable def splatStep (B : RandomBackend) (warp : ℚ → Img → Img)
    (img : Img) (h w th tw grid nv : ℕ)
    (rotation rand_rot wobble falloff : ℚ) :
    (Img × B.S) → (ℕ × ℕ) → (Img × B.S) := fun st cell =>
  let cellW : ℚ := (tw : ℚ) / grid
  let cellH : ℚ := (th : ℚ) / grid
  let r1 := B.rand st.2
  let r2 := B.rand r1.2
  let cx : ℚ :=
    qmod (((cell.1 : ℚ) + 1/2) * cellW + (r1.1 - 1/2) * cellW * wobble * 2) tw
  let cy : ℚ :=
    qmod (((cell.2 : ℚ) + 1/2) * cellH + (r2.1 - 1/2) * cellH * wobble * 2) th
  let pk := B.randint r2.2 nv
  let pm := splatPatch warp img h w falloff (splatAngle nv rotation rand_rot pk.1)
  let top : ℤ := pyInt (cy - (h : ℚ) / 2)
  let left : ℤ := pyInt (cx - (w : ℚ) / 2)
  let c0 := blendClipped st.1 th tw h w top left pm.1 pm.2
  let c1 := if (tw : ℤ) < left + w then
      blendClipped c0 th tw h w top (left - tw) pm.1 pm.2 else c0
  let c2 := if left < 0 then
      blendClipped c1 th tw h w top (left + tw) pm.1 pm.2 else c1
  let c3 := if (th : ℤ) < top + h then
      blendClipped c2 th tw h w (top - th) left pm.1 pm.2 else c2
  let c4 := if top < 0 then
      blendClipped c3 th tw h w (top + th) left pm.1 pm.2 else c3
  let c5 := if (tw : ℤ) < left + w ∧ (th : ℤ) < top + h then
      blendClipped c4 th tw h w (top - th) (left - tw) pm.1 pm.2 else c4
  let c6 := if (tw : ℤ) < left + w ∧ top < 0 then
      blendClipped c5 th tw h w (top + th) (left - tw) pm.1 pm.2 else c5
  let c7 := if left < 0 ∧ (th : ℤ) < top + h then
      blendClipped c6 th tw h w (top - th) (left + tw) pm.1 pm.2 else c6
  let c8 := if left < 0 ∧ top < 0 then
      blendClipped c7 th tw h w (top + th) (left + tw) pm.1 pm.2 else c7
  (c8, pk.2)

/-- `synthesis_splat(image, new_size, grid_size, ...)`: canvas init, patch
bank size, `RandomState(42)`, shuffled raster coordinates, the splat fold,
then `np.clip(..., 0, 255).astype(np.uint8)` (integer truncation).  The
`world` argument models ambient interpreter state; like the source, the
body never consults it. -/
noncomputable def synthesis_splat (B : RandomBackend) (warp : ℚ → Img → Img)
    (World : Type) (world : World) (img : Img) (h w th tw grid : ℕ)
    (rotation rand_rot wobble falloff : ℚ) : ℕ → ℕ → ℤ :=
  let canvas0 := splatCanvasInit img h w th tw
  let nv : ℕ :=
    if rand_rot < 1/100 then 1 else if th ≤ 384 ∧ tw ≤ 384 then 2 else 8
  let coords : List (ℕ × ℕ) :=
    (List.range grid).flatMap (fun gy => (List.range grid).map (fun gx => (gx, gy)))
  let sh := B.shuffle coords (B.seed 42)
  let res := sh.1.foldl
    (splatStep B warp img h w th tw grid nv rotation rand_rot wobble falloff)
    (canvas0, sh.2)
  fun y x => ⌊npClip255 (res.1 y x)⌋

/-- The parameter fields of `SeamlessProcessor` consulted (or, for
`splat_randomize`, merely carried) by the splat path. -/
structure SplatParams where
  splat_scale : ℚ
  splat_rotation : ℚ
  splat_random_rotation : ℚ
  splat_wobble : ℚ
  edge_falloff : ℚ
  splat_randomize : ℤ

/-- `SeamlessProcessor._process_splat`: `new_size = (h, w)`,
`grid_size = int(8 * splat_scale)`, and the remaining parameters passed
through.  No seed parameter exists: `synthesis_splat` seeds its own
`RandomState(42)`, and `splat_randomize` is never passed in. -/
noncomputable def processSplat (B : RandomBackend) (warp : ℚ → Img → Img)
    (World : Type) (world : World) (img : Img) (h w : ℕ) (p : SplatParams) :
    ℕ → ℕ → ℤ :=
  synthesis_splat B warp World world img h w h w
    (pyInt (8 * p.splat_scale)).toNat p.splat_rotation
    p.splat_random_rotation p.splat_wobble p.edge_falloff

/-- C4: splat synthesis is deterministic as a two-run property.  For every
RNG backend implementing the `RandomState` interface, every rotation kernel,
and any two ambient interpreter states, two invocations of the splat path
with identical image and identical parameters — the `splat_randomize`
("random seed") field included — produce identical (byte-identical after the
`uint8` quantisation) output.  The hypotheses do not mention
`splat_randomize`: the splat path never reads it, since `synthesis_splat`
seeds its own `RandomState(42)`. -/
theorem processSplat_deterministic (B : RandomBackend)
    (warp : ℚ → Img → Img) (W1 W2 : Type) (w1 : W1) (w2 : W2) (img : Img)
    (h w : ℕ) (p q : SplatParams)
    (h1 : p.splat_scale = q.splat_scale)
    (h2 : p.splat_rotation = q.splat_rotation)
    (h3 : p.splat_random_rotation = q.splat_random_rotation)
    (h4 : p.splat_wobble = q.splat_wobble)
    (h5 : p.edge_falloff = q.edge_falloff) :
    processSplat B warp W1 w1 img h w p = processSplat B warp W2 w2 img h w q := by
  unfold processSplat
  rw [h1, h2, h3, h4, h5]
  unfold synthesis_splat
  rfl

/-- A concrete `RandomBackend` for witnesses. -/
def trivialRandom : RandomBackend :=
  ⟨Unit, fun _ => (), fun s => (0, s), fun s _ => (0, s), fun l s => (l, s)⟩

/-- Witness for `processSplat_deterministic`: two runs in different ambient
worlds with different `splat_randomize` values agree. -/
theorem processSplat_deterministic_witness :
    processSplat trivialRandom (fun _ f => f) Unit () (fun _ _ => (0 : ℝ)) 1 1
      ⟨1, 0, 0, 0, 0, 5⟩ =
    processSplat trivialRandom (fun _ f => f) Bool true (fun _ _ => (0 : ℝ)) 1 1
      ⟨1, 0, 0, 0, 0, 7⟩ :=
  processSplat_deterministic trivialRandom (fun _ f => f) Unit Bool () true
    (fun _ _ => (0 : ℝ)) 1 1 ⟨1, 0, 0, 0, 0, 5⟩ ⟨1, 0, 0, 0, 0, 7⟩
    rfl rfl rfl rfl rfl

/-- C8 counterexample: for the 1×2 source `[10, 200]` and a 2×2 target, the
canvas is initialised to the tiled source: pixel `(0,0)` is 10, not the
mean color 105. -/
theorem splatCanvasInit_not_mean_counterexample :
    splatCanvasInit (fun _ x => if x = 0 then (10 : ℝ) else 200) 1 2 2 2 0 0
      = 10 ∧
    meanColorSpec (fun _ x => if x = 0 then (10 : ℝ) else 200) 1 2 = 105 ∧
    (10 : ℝ) ≠ 105 := by
  refine ⟨?_, ?_, by norm_num⟩
  · unfold splatCanvasInit
    rw [if_pos (Or.inl (by norm_num))]
    show (if (0 : ℕ) < ((2 + 1 - 1) / 1) * 1 ∧ (0 : ℕ) < ((2 + 2 - 1) / 2) * 2
      then (fun _ x => if x = 0 then (10 : ℝ) else 200) (0 % 1) (0 % 2)
      else 0) = 10
    norm_num
  · unfold meanColorSpec
    rw [show List.range 1 = [0] from rfl, show List.range 2 = [0, 1] from rfl]
    simp only [List.map_cons, List.map_nil, List.sum_cons, List.sum_nil]
    norm_num

/-- C8 (amended): when the target exceeds the source in either dimension,
the splat canvas is initialised by tiling the source periodically over the
target (`canvas[y][x] = source[y mod h][x mod w]`), and otherwise by
resizing the source to the target — not by a solid fill of the source's
mean color. -/
theorem splatCanvasInit_tiles (img : Img) (h w th tw : ℕ)
    (hcond : h < th ∨ w < tw) (hh : 0 < h) (hw : 0 < w) (y x : ℕ)
    (hy : y < th) (hx : x < tw) :
    splatCanvasInit img h w th tw y x = img (y % h) (x % w) := by
  unfold splatCanvasInit
  rw [if_pos hcond]
  have hceil : ∀ (a b : ℕ), 0 < b → a ≤ b * ((a + b - 1) / b) := by
    intro a b hb
    have hdm := Nat.div_add_mod (a + b - 1) b
    have hmod : (a + b - 1) % b < b := Nat.mod_lt _ hb
    by_contra hc
    push_neg at hc
    have hlt : b * ((a + b - 1) / b) + (a + b - 1) % b < a + b - 1 := by
      calc b * ((a + b - 1) / b) + (a + b - 1) % b
          ≤ b * ((a + b - 1) / b) + (b - 1) :=
            Nat.add_le_add_left (by omega) _
        _ < a + (b - 1) := Nat.add_lt_add_right hc (b - 1)
        _ = a + b - 1 := by omega
    rw [hdm] at hlt
    exact absurd hlt (lt_irrefl _)
  have hy' : y < ((th + h - 1) / h) * h := by
    rw [Nat.mul_comm]
    exact lt_of_lt_of_le hy (hceil th h hh)
  have hx' : x < ((tw + w - 1) / w) * w := by
    rw [Nat.mul_comm]
    exact lt_of_lt_of_le hx (hceil tw w hw)
  show (if y < ((th + h - 1) / h) * h ∧ x < ((tw + w - 1) / w) * w
    then img (y % h) (x % w) else 0) = img (y % h) (x % w)
  rw [if_pos ⟨hy', hx'⟩]

/-- Witness for `splatCanvasInit_tiles` on a 1×2 source and 2×2 target. -/
theorem splatCanvasInit_tiles_witness :
    splatCanvasInit (fun _ x => if x = 0 then (10 : ℝ) else 200) 1 2 2 2 1 1 =
      (fun _ x => if x = 0 then (10 : ℝ) else 200) (1 % 1) (1 % 2) :=
  splatCanvasInit_tiles (fun _ x => if x = 0 then (10 : ℝ) else 200) 1 2 2 2
    (Or.inl (by norm_num)) (by norm_num) (by norm_num) 1 1 (by norm_num)
    (by norm_num)
